import Mathlib

/-!
Verification of the Task Decomposition & Orchestration Engine of the
`langgraph-agentic-dev-starter` agent service.

The Python sources under `src/agent-service/app` are shallowly embedded here:
strings are `List Char`, Python dicts keyed by step id are association lists
with dict insertion semantics, `async` functions become pure functions over
oracle parameters (the LLM backend, the AST syntax checker, the wall clock),
and code paths that can raise become `Except`-valued functions.  Bounded
while-loops are embedded with an explicit fuel argument that provably never
runs out, so every definition evaluates by kernel reduction on concrete input.
-/

namespace AgentService

/-- Python strings are embedded as lists of characters. -/
abbrev Str := List Char

/-- Coerce a Lean string literal to the embedded string type. -/
def str (s : String) : Str := s.data

/-- Python's notion of ASCII whitespace used by `str.strip` / `str.split`. -/
def isPySpace (c : Char) : Bool :=
  c == ' ' || c == '\t' || c == '\n' || c == '\r' || c == '\x0b' || c == '\x0c'

/-- Embedding of Python `str.strip()`: drop leading and trailing whitespace. -/
def pyStrip (l : Str) : Str :=
  ((l.dropWhile isPySpace).reverse.dropWhile isPySpace).reverse

/-- Split a string at the first occurrence of `sep`, returning the parts
before and after the occurrence, or `none` if `sep` does not occur. -/
def splitFirst (sep : Str) : Str → Option (Str × Str)
  | [] => if sep.isEmpty then some ([], []) else none
  | c :: rest =>
    if sep.isPrefixOf (c :: rest) then some ([], (c :: rest).drop sep.length)
    else
      match splitFirst sep rest with
      | some (b, a) => some (c :: b, a)
      | none => none

/-- Embedding of Python's `sep in s` substring test. -/
def containsStr (sep l : Str) : Bool := (splitFirst sep l).isSome

theorem splitFirst_length {sep l b a : Str} (h : splitFirst sep l = some (b, a)) :
    a.length + sep.length ≤ l.length := by
  induction l generalizing b with
  | nil =>
    simp only [splitFirst] at h
    split at h
    · rename_i hsep
      simp only [List.isEmpty_iff] at hsep
      cases h
      simp [hsep]
    · cases h
  | cons c rest ih =>
    simp only [splitFirst] at h
    split at h
    · rename_i hpre
      cases h
      have hlen : sep.length ≤ (c :: rest).length := by
        have := List.isPrefixOf_iff_prefix.mp hpre
        exact this.length_le
      simp only [List.length_drop]
      omega
    · rename_i hpre
      cases hrec : splitFirst sep rest with
      | none => rw [hrec] at h; cases h
      | some p =>
        obtain ⟨b0, a0⟩ := p
        rw [hrec] at h
        cases h
        have := ih hrec
        simp only [List.length_cons]
        omega

/-- Fueled worker for Python `str.split(sep)` (non-overlapping, left to
right).  The fuel strictly exceeds the string length at every call, so the
exhaustion branch is unreachable. -/
def splitOnFuel (sep : Str) : Nat → Str → List Str
  | 0, l => [l]
  | fuel + 1, l =>
    match splitFirst sep l with
    | none => [l]
    | some (b, a) => b :: splitOnFuel sep fuel a

/-- Embedding of Python `s.split(sep)` for a non-empty separator
(Python raises on an empty separator; the embedding never passes one). -/
def splitOnStr (sep l : Str) : List Str :=
  if sep.isEmpty then [l] else splitOnFuel sep (l.length + 1) l

theorem splitOnFuel_congr {sep : Str} (hsep : sep ≠ []) :
    ∀ fuel₁ fuel₂ l, l.length < fuel₁ → l.length < fuel₂ →
      splitOnFuel sep fuel₁ l = splitOnFuel sep fuel₂ l := by
  intro fuel₁
  induction fuel₁ with
  | zero => intro fuel₂ l h1 _; omega
  | succ f ih =>
    intro fuel₂ l h1 h2
    cases fuel₂ with
    | zero => omega
    | succ f2 =>
      simp only [splitOnFuel]
      cases hsf : splitFirst sep l with
      | none => rfl
      | some p =>
        obtain ⟨b, a⟩ := p
        have hlen := splitFirst_length hsf
        have hseplen : 1 ≤ sep.length := by
          cases sep with
          | nil => exact absurd rfl hsep
          | cons x xs => simp
        have ha1 : a.length < f := by omega
        have ha2 : a.length < f2 := by omega
        simp [ih f2 a ha1 ha2]

/-- Unfolding rule for `splitOnStr` with a non-empty separator. -/
theorem splitOnStr_eq {sep : Str} (hsep : sep ≠ []) (l : Str) :
    splitOnStr sep l =
      match splitFirst sep l with
      | none => [l]
      | some (b, a) => b :: splitOnStr sep a := by
  have hne : sep.isEmpty = false := by
    cases sep with
    | nil => exact absurd rfl hsep
    | cons x xs => rfl
  simp only [splitOnStr, hne, if_false]
  conv_lhs => rw [splitOnFuel]
  cases hsf : splitFirst sep l with
  | none => rfl
  | some p =>
    obtain ⟨b, a⟩ := p
    have hlen := splitFirst_length hsf
    have hseplen : 1 ≤ sep.length := by
      cases sep with
      | nil => exact absurd rfl hsep
      | cons x xs => simp
    simp only [if_neg (by simp : ¬ (false = true))]
    congr 1
    exact splitOnFuel_congr hsep l.length (a.length + 1) a (by omega) (by omega)

theorem splitOnStr_ne_nil (sep l : Str) : splitOnStr sep l ≠ [] := by
  by_cases hsep : sep = []
  · simp [splitOnStr, hsep]
  · rw [splitOnStr_eq hsep]
    cases splitFirst sep l with
    | none => simp
    | some p => obtain ⟨b, a⟩ := p; simp

/-- The substring test holds exactly when `split` produced at least two
pieces; this is the relation the Python guards rely on. -/
theorem containsStr_iff {sep : Str} (hsep : sep ≠ []) (l : Str) :
    containsStr sep l = true ↔ 2 ≤ (splitOnStr sep l).length := by
  rw [splitOnStr_eq hsep]
  unfold containsStr
  cases hsf : splitFirst sep l with
  | none => simp
  | some p =>
    obtain ⟨b, a⟩ := p
    have := splitOnStr_ne_nil sep a
    constructor
    · intro _
      simp only [List.length_cons]
      cases h : splitOnStr sep a with
      | nil => exact absurd h this
      | cons x xs => simp
    · intro _; simp

/-- Python `s.split(sep)[0]`: always defined since `split` is never empty. -/
def splitHead (sep l : Str) : Str :=
  match splitOnStr sep l with
  | x :: _ => x
  | [] => []

/-- Python list indexing `l[i]`, which raises `IndexError` out of bounds. -/
def pyIndex {α : Type} (l : List α) (i : Nat) : Except Str α :=
  match l.get? i with
  | some x => .ok x
  | none => .error (str "IndexError")

theorem pyIndex_one_of_contains {sep : Str} (hsep : sep ≠ []) (l : Str)
    (h : containsStr sep l = true) :
    ∃ x, pyIndex (splitOnStr sep l) 1 = .ok x := by
  have h2 := (containsStr_iff hsep l).mp h
  cases hs : splitOnStr sep l with
  | nil => simp [hs] at h2
  | cons a rest =>
    cases rest with
    | nil => rw [hs] at h2; simp at h2
    | cons b rest2 => exact ⟨b, by simp [pyIndex]⟩

/-- Embedding of Python `str.lower()` (ASCII case folding). -/
def toLowerStr (l : Str) : Str := l.map Char.toLower

/-- Embedding of Python `str.upper()` (ASCII case folding). -/
def toUpperStr (l : Str) : Str := l.map Char.toUpper

/-- Decimal rendering of a natural number, as Python `str(n)` / f-strings. -/
def natToStr (n : Nat) : Str := (Nat.repr n).data

/-- Fueled worker for Python's whitespace `str.split()` (no separator):
runs of whitespace separate words, empties are dropped. -/
def pyWordsFuel : Nat → Str → List Str
  | 0, _ => []
  | fuel + 1, l =>
    match l with
    | [] => []
    | c :: rest =>
      if isPySpace c then pyWordsFuel fuel rest
      else (c :: rest.takeWhile (fun d => !(isPySpace d))) ::
        pyWordsFuel fuel (rest.dropWhile (fun d => !(isPySpace d)))

/-- Embedding of Python `task.split()` used for word counting. -/
def pyWords (l : Str) : List Str := pyWordsFuel (l.length + 1) l

/-!
## Planner data model (`app/agents/planner/models.py`)
-/

/-- One step of an execution plan (`PlanStep` dataclass).  The
`__post_init__` validation restricts `complexity` and `status` to fixed
vocabularies; those fields do not affect staging and are carried verbatim. -/
structure PlanStep where
  id : Str
  task : Str
  depends_on : List Str
  complexity : Str := str "medium"
  status : Str := str "pending"
deriving Repr, DecidableEq

/-- A complete execution plan (`ProjectPlan` dataclass). -/
structure ProjectPlan where
  original_task : Str
  reasoning : Str
  steps : List PlanStep
deriving Repr, DecidableEq

/-- One insertion into a Python dict keyed by `step.id`: an existing key
keeps its position but its value is overwritten; a new key is appended. -/
def dictInsert (m : List PlanStep) (s : PlanStep) : List PlanStep :=
  if m.any (fun t => t.id == s.id) then
    m.map (fun t => if t.id == s.id then s else t)
  else m ++ [s]

/-- The Python dict comprehension `{step.id: step for step in steps}`:
key order is first occurrence, value is the last occurrence.
`get_execution_stages` consults only this map (both `step_map` and
`remaining_deps` are comprehensions over the same keys in the same order). -/
def dedupSteps (steps : List PlanStep) : List PlanStep :=
  steps.foldl dictInsert []

/-- One round's ready set: the not-yet-staged steps whose dependency sets
are contained in `staged` (`ready_ids` in dict order, composed with the
`step_map[step_id]` lookups, which return exactly these filtered steps
because dict keys are unique). -/
def readyStepsOf (m : List PlanStep) (staged : List Str) : List PlanStep :=
  m.filter (fun s => !(staged.contains s.id) && s.depends_on.all (fun d => staged.contains d))

/-- The staging `while` loop of `ProjectPlan.get_execution_stages`.  `m` is
the step dict, `n` is `len(self.steps)`.  Each iteration emits the current
ready set as one stage and marks it staged.  An empty ready set raises
`ValueError` listing the unstaged ids (the Python message interpolates the
set `set(step_map.keys()) - staged_ids`; the embedding carries that set as a
list in dict order).  The fuel argument strictly exceeds `n - staged.length`
at every call, so its exhaustion branch (which mirrors the loop-exit result)
is unreachable. -/
def stagesLoop (m : List PlanStep) (n : Nat) :
    Nat → List Str → Except (List Str) (List (List PlanStep))
  | 0, _ => .ok []
  | fuel + 1, staged =>
    if staged.length < n then
      if ((readyStepsOf m staged).map (fun s => s.id)).isEmpty then
        .error ((m.map (fun s => s.id)).filter (fun i => !(staged.contains i)))
      else
        match stagesLoop m n fuel
            (staged ++ (readyStepsOf m staged).map (fun s => s.id)) with
        | .error e => .error e
        | .ok rest => .ok (readyStepsOf m staged :: rest)
    else .ok []

/-- Embedding of `ProjectPlan.get_execution_stages`: empty plans return no
stages, otherwise Kahn's-algorithm staging over the step dict.  A raised
`ValueError` (circular dependency) is the `.error` case, carrying the
unstaged ids named by the exception message. -/
def getExecutionStages (steps : List PlanStep) : Except (List Str) (List (List PlanStep)) :=
  if steps.isEmpty then .ok []
  else stagesLoop (dedupSteps steps) steps.length (steps.length + 1) []

/-- An edge of the plan's dependency graph: the (effective, after dict
collapse) step named `a` lists `b` among its dependencies. -/
def depEdge (steps : List PlanStep) (a b : Str) : Bool :=
  (dedupSteps steps).any (fun s => s.id == a && s.depends_on.contains b)

/-- A directed cycle in the dependency graph: a non-empty id list in which
every entry has a dependency edge to its cyclic successor. -/
def IsDepCycle (steps : List PlanStep) (c : List Str) : Prop :=
  c ≠ [] ∧ ∀ i : Fin c.length,
    depEdge steps (c.get i) (c.get ⟨(i.val + 1) % c.length, Nat.mod_lt _ i.pos⟩) = true

instance (steps : List PlanStep) (c : List Str) : Decidable (IsDepCycle steps c) := by
  unfold IsDepCycle
  infer_instance

/-!
### Properties of the step dict
-/

theorem dictInsert_map_id (m : List PlanStep) (s : PlanStep) :
    (dictInsert m s).map (fun t => t.id) =
      if m.any (fun t => t.id == s.id) then m.map (fun t => t.id)
      else m.map (fun t => t.id) ++ [s.id] := by
  unfold dictInsert
  split
  · simp only [List.map_map]
    apply List.map_congr_left
    intro t _
    simp only [Function.comp_apply]
    by_cases ht : t.id = s.id
    · simp [ht]
    · simp [ht]
  · simp

theorem dedupSteps_aux_map_id_nodup (l : List PlanStep) :
    ∀ acc : List PlanStep, (acc.map (fun t => t.id)).Nodup →
      ((l.foldl dictInsert acc).map (fun t => t.id)).Nodup := by
  induction l with
  | nil => intro acc h; simpa using h
  | cons s rest ih =>
    intro acc h
    rw [List.foldl_cons]
    apply ih
    rw [dictInsert_map_id]
    split
    · exact h
    · rename_i hany
      rw [List.nodup_append]
      refine ⟨h, List.nodup_singleton _, ?_⟩
      rw [List.disjoint_left]
      intro x hx hx1
      simp only [List.mem_singleton] at hx1
      subst hx1
      rw [List.mem_map] at hx
      obtain ⟨t, ht, hts⟩ := hx
      exact hany (List.any_eq_true.mpr ⟨t, ht, by simp [hts]⟩)

/-- The step dict has pairwise distinct keys. -/
theorem dedupSteps_nodup (steps : List PlanStep) :
    ((dedupSteps steps).map (fun t => t.id)).Nodup :=
  dedupSteps_aux_map_id_nodup steps [] (by simp)

theorem dedupSteps_aux_mem (l : List PlanStep) :
    ∀ acc x, (x ∈ (l.foldl dictInsert acc).map (fun t => t.id)) ↔
      (x ∈ acc.map (fun t => t.id) ∨ x ∈ l.map (fun t => t.id)) := by
  induction l with
  | nil => intro acc x; simp
  | cons s rest ih =>
    intro acc x
    rw [List.foldl_cons, ih]
    rw [dictInsert_map_id]
    constructor
    · intro h
      rcases h with h | h
      · split at h
        · exact Or.inl h
        · rw [List.mem_append] at h
          rcases h with h | h
          · exact Or.inl h
          · simp only [List.mem_singleton] at h
            subst h
            exact Or.inr (by simp)
      · exact Or.inr (by simp [h])
    · intro h
      rcases h with h | h
      · split
        · exact Or.inl h
        · exact Or.inl (List.mem_append.mpr (Or.inl h))
      · rw [List.map_cons, List.mem_cons] at h
        rcases h with h | h
        · subst h
          split
          · rename_i hany
            rw [List.any_eq_true] at hany
            obtain ⟨t, ht, hts⟩ := hany
            left
            rw [List.mem_map]
            exact ⟨t, ht, by simpa using hts⟩
          · exact Or.inl (List.mem_append.mpr (Or.inr (by simp)))
        · exact Or.inr h

/-- The step dict's key set is exactly the plan's id set. -/
theorem dedupSteps_mem (steps : List PlanStep) (x : Str) :
    x ∈ (dedupSteps steps).map (fun t => t.id) ↔ x ∈ steps.map (fun t => t.id) := by
  have := dedupSteps_aux_mem steps [] x
  simpa using this

theorem dedupSteps_aux_length (l : List PlanStep) :
    ∀ acc, (l.foldl dictInsert acc).length ≤ acc.length + l.length := by
  induction l with
  | nil => intro acc; simp
  | cons s rest ih =>
    intro acc
    rw [List.foldl_cons]
    have h1 : (dictInsert acc s).length ≤ acc.length + 1 := by
      unfold dictInsert
      split
      · simp
      · simp
    calc (rest.foldl dictInsert (dictInsert acc s)).length
        ≤ (dictInsert acc s).length + rest.length := ih _
      _ ≤ acc.length + 1 + rest.length := by omega
      _ = acc.length + (s :: rest).length := by simp; omega

/-- The step dict never has more entries than the plan has steps. -/
theorem dedupSteps_length (steps : List PlanStep) :
    (dedupSteps steps).length ≤ steps.length := by
  have := dedupSteps_aux_length steps []
  simpa using this

theorem dedupSteps_aux_eq_self (l : List PlanStep) :
    ∀ acc, ((acc ++ l).map (fun t => t.id)).Nodup →
      l.foldl dictInsert acc = acc ++ l := by
  induction l with
  | nil => intro acc _; simp
  | cons s rest ih =>
    intro acc h
    rw [List.foldl_cons]
    have hins : dictInsert acc s = acc ++ [s] := by
      unfold dictInsert
      rw [if_neg]
      intro hany
      rw [List.any_eq_true] at hany
      obtain ⟨t, ht, hts⟩ := hany
      have hts2 : t.id = s.id := by simpa using hts
      have hsid : s.id ∈ (acc ++ s :: rest).map (fun t => t.id) := by
        rw [List.mem_map]
        exact ⟨t, List.mem_append.mpr (Or.inl ht), hts2⟩
      rw [List.map_append] at h
      have := (List.nodup_append.mp h).2.2
      rw [List.disjoint_left] at this
      have hmem : s.id ∈ acc.map (fun t => t.id) := by
        rw [List.mem_map]; exact ⟨t, ht, hts2⟩
      exact this hmem (by simp)
    rw [hins, ih (acc ++ [s]) (by simpa using h)]
    simp

/-- If the plan's ids are pairwise distinct, the dict keeps the steps
exactly as given. -/
theorem dedupSteps_eq_self {steps : List PlanStep}
    (h : (steps.map (fun t => t.id)).Nodup) : dedupSteps steps = steps := by
  have := dedupSteps_aux_eq_self steps [] (by simpa using h)
  simpa using this

/-!
### Cardinality helpers for duplicate-free id lists
-/

theorem nodup_subset_length_le {l m : List Str} (hl : l.Nodup) (hm : m.Nodup)
    (hsub : ∀ x ∈ l, x ∈ m) : l.length ≤ m.length := by
  have h1 : l.toFinset ⊆ m.toFinset := by
    intro x hx
    exact List.mem_toFinset.mpr (hsub x (List.mem_toFinset.mp hx))
  calc l.length = l.toFinset.card := (List.toFinset_card_of_nodup hl).symm
    _ ≤ m.toFinset.card := Finset.card_le_card h1
    _ = m.length := List.toFinset_card_of_nodup hm

theorem nodup_subset_full {l m : List Str} (hl : l.Nodup) (hm : m.Nodup)
    (hsub : ∀ x ∈ l, x ∈ m) (hlen : m.length ≤ l.length) : ∀ x ∈ m, x ∈ l := by
  have h1 : l.toFinset ⊆ m.toFinset := by
    intro x hx
    exact List.mem_toFinset.mpr (hsub x (List.mem_toFinset.mp hx))
  have hcard : m.toFinset.card ≤ l.toFinset.card := by
    rw [List.toFinset_card_of_nodup hl, List.toFinset_card_of_nodup hm]
    exact hlen
  have heq := Finset.eq_of_subset_of_card_le h1 hcard
  intro x hx
  have : x ∈ l.toFinset := by rw [heq]; exact List.mem_toFinset.mpr hx
  exact List.mem_toFinset.mp this

theorem nodup_subset_avoid_length_lt {l m : List Str} {a : Str}
    (hl : l.Nodup) (hm : m.Nodup) (hsub : ∀ x ∈ l, x ∈ m)
    (ha : a ∈ m) (hna : a ∉ l) : l.length < m.length := by
  have h1 : l.toFinset ⊆ m.toFinset.erase a := by
    rw [Finset.subset_erase]
    constructor
    · intro x hx
      exact List.mem_toFinset.mpr (hsub x (List.mem_toFinset.mp hx))
    · intro hx
      exact hna (List.mem_toFinset.mp hx)
  have h2 : l.toFinset.card ≤ m.toFinset.card - 1 := by
    calc l.toFinset.card ≤ (m.toFinset.erase a).card := Finset.card_le_card h1
      _ = m.toFinset.card - 1 := Finset.card_erase_of_mem (List.mem_toFinset.mpr ha)
  have h3 : 0 < m.toFinset.card := Finset.card_pos.mpr ⟨a, List.mem_toFinset.mpr ha⟩
  rw [List.toFinset_card_of_nodup hl] at h2
  rw [List.toFinset_card_of_nodup hm] at h2 h3
  omega

/-!
### The staging loop: partition of the steps over the produced stages
-/

theorem readyStepsOf_mem {m : List PlanStep} {staged : List Str} {s : PlanStep}
    (h : s ∈ readyStepsOf m staged) :
    s ∈ m ∧ s.id ∉ staged ∧ ∀ d ∈ s.depends_on, d ∈ staged := by
  rw [readyStepsOf, List.mem_filter] at h
  obtain ⟨hm, hcond⟩ := h
  rw [Bool.and_eq_true, Bool.not_eq_true'] at hcond
  refine ⟨hm, ?_, ?_⟩
  · intro hmem
    have : staged.contains s.id = true := by simpa using hmem
    rw [hcond.1] at this
    exact Bool.noConfusion this
  · intro d hd
    have := List.all_eq_true.mp hcond.2 d hd
    simpa using this

theorem readyIds_nodup {m : List PlanStep} (staged : List Str)
    (hM : (m.map (fun s => s.id)).Nodup) :
    ((readyStepsOf m staged).map (fun s => s.id)).Nodup := by
  apply List.Sublist.nodup _ hM
  exact List.Sublist.map _ (List.filter_sublist m)

theorem readyIds_sub {m : List PlanStep} {staged : List Str} {x : Str}
    (h : x ∈ (readyStepsOf m staged).map (fun s => s.id)) :
    x ∈ m.map (fun s => s.id) ∧ x ∉ staged := by
  rw [List.mem_map] at h
  obtain ⟨s, hs, hsid⟩ := h
  obtain ⟨hm, hfresh, _⟩ := readyStepsOf_mem hs
  subst hsid
  exact ⟨List.mem_map.mpr ⟨s, hm, rfl⟩, hfresh⟩

theorem stagesLoop_ok_partition (m : List PlanStep) (n : Nat)
    (hM : (m.map (fun s => s.id)).Nodup) (hMn : m.length ≤ n) :
    ∀ fuel staged stages,
      staged.Nodup → (∀ x ∈ staged, x ∈ m.map (fun s => s.id)) →
      n < fuel + staged.length →
      stagesLoop m n fuel staged = .ok stages →
      (∀ st ∈ stages, st ≠ []) ∧
      ((stages.flatten.map (fun s => s.id)).Nodup) ∧
      (∀ x, x ∈ stages.flatten.map (fun s => s.id) ↔
        (x ∈ m.map (fun s => s.id) ∧ x ∉ staged)) := by
  intro fuel
  induction fuel with
  | zero =>
    intro staged stages hnd hsub hfuel hok
    simp only [stagesLoop] at hok
    cases hok
    refine ⟨by simp, by simp, ?_⟩
    intro x
    simp only [List.flatten_nil, List.map_nil, List.not_mem_nil, false_iff]
    intro ⟨hxm, hxs⟩
    have := nodup_subset_length_le hnd hM hsub
    simp only [List.length_map] at this
    omega
  | succ fuel ih =>
    intro staged stages hnd hsub hfuel hok
    simp only [stagesLoop] at hok
    by_cases hguard : staged.length < n
    · rw [if_pos hguard] at hok
      by_cases hre : ((readyStepsOf m staged).map (fun s => s.id)).isEmpty
      · rw [if_pos hre] at hok
        cases hok
      · rw [if_neg hre] at hok
        have hreadyne : (readyStepsOf m staged).map (fun s => s.id) ≠ [] := by
          intro h
          rw [h] at hre
          exact hre rfl
        have hreadynodup := readyIds_nodup staged hM (m := m)
        have hnd2 : (staged ++ (readyStepsOf m staged).map (fun s => s.id)).Nodup := by
          rw [List.nodup_append]
          refine ⟨hnd, hreadynodup, ?_⟩
          rw [List.disjoint_left]
          intro a ha ha2
          exact (readyIds_sub ha2).2 ha
        have hsub2 : ∀ x ∈ staged ++ (readyStepsOf m staged).map (fun s => s.id),
            x ∈ m.map (fun s => s.id) := by
          intro x hx
          rcases List.mem_append.mp hx with h | h
          · exact hsub x h
          · exact (readyIds_sub h).1
        have hfuel2 : n < fuel +
            (staged ++ (readyStepsOf m staged).map (fun s => s.id)).length := by
          have : 1 ≤ ((readyStepsOf m staged).map (fun s => s.id)).length := by
            cases h : (readyStepsOf m staged).map (fun s => s.id) with
            | nil => exact absurd h hreadyne
            | cons a l => simp
          simp only [List.length_append]
          omega
        cases hrec : stagesLoop m n fuel
            (staged ++ (readyStepsOf m staged).map (fun s => s.id)) with
        | error e => rw [hrec] at hok; cases hok
        | ok rest =>
          rw [hrec] at hok
          cases hok
          obtain ⟨ih1, ih2, ih3⟩ := ih _ rest hnd2 hsub2 hfuel2 hrec
          refine ⟨?_, ?_, ?_⟩
          · intro st hst
            rcases List.mem_cons.mp hst with h | h
            · subst h
              intro h0
              apply hreadyne
              rw [h0]
              rfl
            · exact ih1 st h
          · rw [List.flatten_cons, List.map_append]
            rw [List.nodup_append]
            refine ⟨hreadynodup, ih2, ?_⟩
            rw [List.disjoint_left]
            intro a ha ha2
            have := (ih3 a).mp ha2
            exact this.2 (List.mem_append.mpr (Or.inr ha))
          · intro x
            rw [List.flatten_cons, List.map_append, List.mem_append]
            constructor
            · intro h
              rcases h with h | h
              · exact ⟨(readyIds_sub h).1, (readyIds_sub h).2⟩
              · have := (ih3 x).mp h
                refine ⟨this.1, ?_⟩
                intro hx
                exact this.2 (List.mem_append.mpr (Or.inl hx))
            · intro ⟨hxm, hxs⟩
              by_cases hxr : x ∈ (readyStepsOf m staged).map (fun s => s.id)
              · exact Or.inl hxr
              · right
                apply (ih3 x).mpr
                refine ⟨hxm, ?_⟩
                intro hx
                rcases List.mem_append.mp hx with h | h
                · exact hxs h
                · exact hxr h
    · rw [if_neg hguard] at hok
      cases hok
      refine ⟨by simp, by simp, ?_⟩
      intro x
      simp only [List.flatten_nil, List.map_nil, List.not_mem_nil, false_iff]
      intro ⟨hxm, hxs⟩
      have hfull := nodup_subset_full hnd hM hsub (by simp; omega)
      exact hxs (hfull x hxm)

/-!
### The staging loop: dependencies are always staged strictly earlier
-/

theorem stagesLoop_ok_deps (m : List PlanStep) (n : Nat) :
    ∀ fuel staged stages,
      stagesLoop m n fuel staged = .ok stages →
      ∀ i (hi : i < stages.length), ∀ s ∈ stages[i], ∀ d ∈ s.depends_on,
        d ∈ staged ∨ d ∈ ((stages.take i).flatten.map (fun t => t.id)) := by
  intro fuel
  induction fuel with
  | zero =>
    intro staged stages hok i hi
    simp only [stagesLoop] at hok
    cases hok
    simp at hi
  | succ fuel ih =>
    intro staged stages hok i hi s hs d hd
    simp only [stagesLoop] at hok
    by_cases hguard : staged.length < n
    · rw [if_pos hguard] at hok
      by_cases hre : ((readyStepsOf m staged).map (fun s => s.id)).isEmpty
      · rw [if_pos hre] at hok
        cases hok
      · rw [if_neg hre] at hok
        cases hrec : stagesLoop m n fuel
            (staged ++ (readyStepsOf m staged).map (fun s => s.id)) with
        | error e => rw [hrec] at hok; cases hok
        | ok rest =>
          rw [hrec] at hok
          cases hok
          cases i with
          | zero =>
            left
            simp only [List.getElem_cons_zero] at hs
            exact (readyStepsOf_mem hs).2.2 d hd
          | succ k =>
            have hk : k < rest.length := by
              simp only [List.length_cons] at hi
              omega
            simp only [List.getElem_cons_succ] at hs
            have := ih _ rest hrec k hk s hs d hd
            rcases this with h | h
            · rcases List.mem_append.mp h with h2 | h2
              · exact Or.inl h2
              · right
                rw [List.take_succ_cons, List.flatten_cons, List.map_append]
                exact List.mem_append.mpr (Or.inl h2)
            · right
              rw [List.take_succ_cons, List.flatten_cons, List.map_append]
              exact List.mem_append.mpr (Or.inr h)
    · rw [if_neg hguard] at hok
      cases hok
      simp at hi

/-!
### The staging loop: failure names a dependency-closed set of ids
-/

theorem id_injective_of_nodup {m : List PlanStep}
    (h : (m.map (fun s => s.id)).Nodup)
    {s t : PlanStep} (hs : s ∈ m) (ht : t ∈ m) (hid : s.id = t.id) : s = t :=
  List.inj_on_of_nodup_map h hs ht hid

/-- A dependency edge over an explicit step list (the dict). -/
def depEdgeOn (m : List PlanStep) (a b : Str) : Bool :=
  m.any (fun s => s.id == a && s.depends_on.contains b)

theorem depEdge_eq_depEdgeOn (steps : List PlanStep) (a b : Str) :
    depEdge steps a b = depEdgeOn (dedupSteps steps) a b := rfl

theorem stagesLoop_error_closed (m : List PlanStep) (n : Nat)
    (hM : (m.map (fun s => s.id)).Nodup) (hmn : m.length = n)
    (hdeps : ∀ s ∈ m, ∀ d ∈ s.depends_on, d ∈ m.map (fun t => t.id)) :
    ∀ fuel staged l, staged.Nodup → (∀ x ∈ staged, x ∈ m.map (fun s => s.id)) →
      stagesLoop m n fuel staged = .error l →
      l ≠ [] ∧ ∀ a ∈ l, ∃ b ∈ l, depEdgeOn m a b = true := by
  intro fuel
  induction fuel with
  | zero =>
    intro staged l _ _ herr
    simp only [stagesLoop] at herr
    cases herr
  | succ fuel ih =>
    intro staged l hnd hsub herr
    simp only [stagesLoop] at herr
    by_cases hguard : staged.length < n
    · rw [if_pos hguard] at herr
      by_cases hre : ((readyStepsOf m staged).map (fun s => s.id)).isEmpty
      · rw [if_pos hre] at herr
        cases herr
        have hreadynil : readyStepsOf m staged = [] := by
          have := List.isEmpty_iff.mp hre
          cases h : readyStepsOf m staged with
          | nil => rfl
          | cons a t => rw [h] at this; simp at this
        have hcond := List.filter_eq_nil_iff.mp hreadynil
        constructor
        · intro hempty
          have hall : ∀ x ∈ m.map (fun s => s.id), x ∈ staged := by
            intro x hx
            by_contra hxs
            have : x ∈ (m.map (fun s => s.id)).filter (fun i => !(staged.contains i)) := by
              rw [List.mem_filter]
              refine ⟨hx, ?_⟩
              rw [Bool.not_eq_eq_eq_not]
              simp only [Bool.not_true]
              rw [← Bool.not_eq_true]
              intro hc
              exact hxs (by simpa using hc)
            rw [hempty] at this
            exact (List.not_mem_nil x) this
          have := nodup_subset_length_le hM hnd hall
          simp only [List.length_map] at this
          omega
        · intro a ha
          rw [List.mem_filter] at ha
          obtain ⟨ham, hans⟩ := ha
          have hansP : a ∉ staged := by
            intro hmem
            rw [Bool.not_eq_eq_eq_not, Bool.not_true, ← Bool.not_eq_true] at hans
            exact hans (by simpa using hmem)
          rw [List.mem_map] at ham
          obtain ⟨s, hsm, hsid⟩ := ham
          have hnotready := hcond s hsm
          rw [Bool.and_eq_true, Bool.not_eq_true'] at hnotready
          have hcontains : staged.contains s.id = false := by
            rw [← Bool.not_eq_true]
            intro hc
            exact hansP (by rw [← hsid]; simpa using hc)
          have hdep : ¬ (s.depends_on.all (fun d => staged.contains d)) = true := by
            intro hall
            exact hnotready ⟨hcontains, hall⟩
          rw [List.all_eq_true] at hdep
          push_neg at hdep
          obtain ⟨d, hdmem, hdns⟩ := hdep
          have hdM := hdeps s hsm d hdmem
          have hdnsP : d ∉ staged := by
            intro hmem
            exact hdns (by simpa using hmem)
          refine ⟨d, ?_, ?_⟩
          · rw [List.mem_filter]
            refine ⟨hdM, ?_⟩
            rw [Bool.not_eq_eq_eq_not, Bool.not_true, ← Bool.not_eq_true]
            intro hc
            exact hdnsP (by simpa using hc)
          · rw [depEdgeOn, List.any_eq_true]
            refine ⟨s, hsm, ?_⟩
            rw [Bool.and_eq_true]
            constructor
            · simp [hsid]
            · simpa using hdmem
      · rw [if_neg hre] at herr
        have hreadyne : (readyStepsOf m staged).map (fun s => s.id) ≠ [] := by
          intro h
          rw [h] at hre
          exact hre rfl
        have hreadynodup := readyIds_nodup staged hM (m := m)
        have hnd2 : (staged ++ (readyStepsOf m staged).map (fun s => s.id)).Nodup := by
          rw [List.nodup_append]
          refine ⟨hnd, hreadynodup, ?_⟩
          rw [List.disjoint_left]
          intro a ha ha2
          exact (readyIds_sub ha2).2 ha
        have hsub2 : ∀ x ∈ staged ++ (readyStepsOf m staged).map (fun s => s.id),
            x ∈ m.map (fun s => s.id) := by
          intro x hx
          rcases List.mem_append.mp hx with h | h
          · exact hsub x h
          · exact (readyIds_sub h).1
        cases hrec : stagesLoop m n fuel
            (staged ++ (readyStepsOf m staged).map (fun s => s.id)) with
        | error e =>
          rw [hrec] at herr
          cases herr
          exact ih _ l hnd2 hsub2 hrec
        | ok rest =>
          rw [hrec] at herr
          cases herr
    · rw [if_neg hguard] at herr
      cases herr

/-!
### The staging loop: a dependency-closed id set forces failure
-/

theorem stagesLoop_closed_error (m : List PlanStep) (n : Nat)
    (hM : (m.map (fun s => s.id)).Nodup) (hmn : m.length ≤ n)
    (C : List Str) (hCne : C ≠ [])
    (hCsub : ∀ a ∈ C, a ∈ m.map (fun t => t.id))
    (hClosed : ∀ a ∈ C, ∃ b ∈ C, depEdgeOn m a b = true) :
    ∀ fuel staged, staged.Nodup → (∀ x ∈ staged, x ∈ m.map (fun s => s.id)) →
      (∀ x ∈ staged, x ∉ C) → n < fuel + staged.length →
      ∃ l, stagesLoop m n fuel staged = .error l ∧ ∀ a ∈ C, a ∈ l := by
  have hstagedlt : ∀ staged : List Str, staged.Nodup →
      (∀ x ∈ staged, x ∈ m.map (fun s => s.id)) →
      (∀ x ∈ staged, x ∉ C) → staged.length < n := by
    intro staged hnd hsub hdisj
    obtain ⟨a0, ha0⟩ := List.exists_mem_of_ne_nil C hCne
    have ha0M := hCsub a0 ha0
    have ha0ns : a0 ∉ staged := fun h => hdisj a0 h ha0
    have := nodup_subset_avoid_length_lt hnd hM hsub ha0M ha0ns
    simp only [List.length_map] at this
    omega
  intro fuel
  induction fuel with
  | zero =>
    intro staged hnd hsub hdisj hfuel
    have := hstagedlt staged hnd hsub hdisj
    omega
  | succ fuel ih =>
    intro staged hnd hsub hdisj hfuel
    have hguard := hstagedlt staged hnd hsub hdisj
    simp only [stagesLoop]
    rw [if_pos hguard]
    have hreadyC : ∀ x ∈ (readyStepsOf m staged).map (fun s => s.id), x ∉ C := by
      intro x hx hxC
      rw [List.mem_map] at hx
      obtain ⟨s, hsready, hsid⟩ := hx
      obtain ⟨hsm, _, hsdeps⟩ := readyStepsOf_mem hsready
      obtain ⟨b, hbC, hedge⟩ := hClosed x hxC
      rw [depEdgeOn, List.any_eq_true] at hedge
      obtain ⟨t, htm, htcond⟩ := hedge
      rw [Bool.and_eq_true] at htcond
      have htid : t.id = x := by simpa using htcond.1
      have hts : t = s := id_injective_of_nodup hM htm hsm (by rw [htid, hsid])
      have hbdep : b ∈ s.depends_on := by
        rw [← hts]
        simpa using htcond.2
      have hbstaged := hsdeps b hbdep
      exact hdisj b hbstaged hbC
    by_cases hre : ((readyStepsOf m staged).map (fun s => s.id)).isEmpty
    · rw [if_pos hre]
      refine ⟨_, rfl, ?_⟩
      intro a haC
      rw [List.mem_filter]
      refine ⟨hCsub a haC, ?_⟩
      rw [Bool.not_eq_eq_eq_not, Bool.not_true, ← Bool.not_eq_true]
      intro hc
      have : a ∈ staged := by simpa using hc
      exact hdisj a this haC
    · rw [if_neg hre]
      have hreadyne : (readyStepsOf m staged).map (fun s => s.id) ≠ [] := by
        intro h
        rw [h] at hre
        exact hre rfl
      have hreadynodup := readyIds_nodup staged hM (m := m)
      have hnd2 : (staged ++ (readyStepsOf m staged).map (fun s => s.id)).Nodup := by
        rw [List.nodup_append]
        refine ⟨hnd, hreadynodup, ?_⟩
        rw [List.disjoint_left]
        intro a ha ha2
        exact (readyIds_sub ha2).2 ha
      have hsub2 : ∀ x ∈ staged ++ (readyStepsOf m staged).map (fun s => s.id),
          x ∈ m.map (fun s => s.id) := by
        intro x hx
        rcases List.mem_append.mp hx with h | h
        · exact hsub x h
        · exact (readyIds_sub h).1
      have hdisj2 : ∀ x ∈ staged ++ (readyStepsOf m staged).map (fun s => s.id), x ∉ C := by
        intro x hx
        rcases List.mem_append.mp hx with h | h
        · exact hdisj x h
        · exact hreadyC x h
      have hfuel2 : n < fuel +
          (staged ++ (readyStepsOf m staged).map (fun s => s.id)).length := by
        have : 1 ≤ ((readyStepsOf m staged).map (fun s => s.id)).length := by
          cases h : (readyStepsOf m staged).map (fun s => s.id) with
          | nil => exact absurd h hreadyne
          | cons a t => simp
        simp only [List.length_append]
        omega
      obtain ⟨l, hl, hlsub⟩ := ih _ hnd2 hsub2 hdisj2 hfuel2
      refine ⟨l, ?_, hlsub⟩
      rw [hl]

/-!
### Extracting a directed cycle from a dependency-closed id set
-/

/-- Effective dependency list of the step named `a` in the dict. -/
def effDeps (m : List PlanStep) (a : Str) : List Str :=
  match m.find? (fun s => s.id == a) with
  | some s => s.depends_on
  | none => []

/-- A computable successor inside a dependency-closed id set. -/
def succIn (m : List PlanStep) (C : List Str) (a : Str) : Str :=
  match (effDeps m a).find? (fun b => C.contains b) with
  | some b => b
  | none => a

theorem succIn_spec (m : List PlanStep) (hM : (m.map (fun s => s.id)).Nodup)
    (C : List Str) {a : Str} (haC : a ∈ C)
    (hClosed : ∀ x ∈ C, ∃ b ∈ C, depEdgeOn m x b = true) :
    succIn m C a ∈ C ∧ depEdgeOn m a (succIn m C a) = true := by
  obtain ⟨b, hbC, hedge⟩ := hClosed a haC
  rw [depEdgeOn, List.any_eq_true] at hedge
  obtain ⟨s, hsm, hscond⟩ := hedge
  rw [Bool.and_eq_true] at hscond
  have hsid : s.id = a := by simpa using hscond.1
  have hbdep : b ∈ s.depends_on := by simpa using hscond.2
  have hfind : m.find? (fun s => s.id == a) = some s := by
    cases hf : m.find? (fun s => s.id == a) with
    | none =>
      exfalso
      have : (m.find? (fun s => s.id == a)).isSome = true :=
        List.find?_isSome.mpr ⟨s, hsm, by simp [hsid]⟩
      rw [hf] at this
      exact Bool.noConfusion this
    | some t =>
      have htm := List.find?_mem hf
      have htid : t.id = a := by
        have := List.find?_some hf
        simpa using this
      rw [id_injective_of_nodup hM htm hsm (by rw [htid, hsid])]
  have heff : effDeps m a = s.depends_on := by
    rw [effDeps, hfind]
  have hfind2 : ∃ c, (effDeps m a).find? (fun b => C.contains b) = some c := by
    have : ((effDeps m a).find? (fun b => C.contains b)).isSome = true := by
      apply List.find?_isSome.mpr
      exact ⟨b, by rw [heff]; exact hbdep, by simpa using hbC⟩
    cases hf : (effDeps m a).find? (fun b => C.contains b) with
    | none => rw [hf] at this; exact Bool.noConfusion this
    | some c => exact ⟨c, rfl⟩
  obtain ⟨c, hc⟩ := hfind2
  have hcC : c ∈ C := by
    have := List.find?_some hc
    simpa using this
  have hcdep : c ∈ s.depends_on := by
    have := List.find?_mem hc
    rw [heff] at this
    exact this
  have hsucc : succIn m C a = c := by
    rw [succIn, hc]
  rw [hsucc]
  refine ⟨hcC, ?_⟩
  rw [depEdgeOn, List.any_eq_true]
  refine ⟨s, hsm, ?_⟩
  rw [Bool.and_eq_true]
  exact ⟨by simp [hsid], by simpa using hcdep⟩

theorem iterate_succIn_mem (m : List PlanStep) (hM : (m.map (fun s => s.id)).Nodup)
    (C : List Str) {a0 : Str} (ha0 : a0 ∈ C)
    (hClosed : ∀ x ∈ C, ∃ b ∈ C, depEdgeOn m x b = true) :
    ∀ k, (succIn m C)^[k] a0 ∈ C := by
  intro k
  induction k with
  | zero => simpa using ha0
  | succ k ih =>
    rw [Function.iterate_succ_apply']
    exact (succIn_spec m hM C ih hClosed).1

/-- Any non-empty id set in which every element keeps a dependency inside
the set contains a directed dependency cycle. -/
theorem closed_to_cycle (steps : List PlanStep) (C : List Str) (hCne : C ≠ [])
    (hClosed : ∀ a ∈ C, ∃ b ∈ C, depEdgeOn (dedupSteps steps) a b = true) :
    ∃ c, IsDepCycle steps c := by
  have hM := dedupSteps_nodup steps
  obtain ⟨a0, ha0⟩ := List.exists_mem_of_ne_nil C hCne
  have hiter := iterate_succIn_mem (dedupSteps steps) hM C ha0 hClosed
  set f := succIn (dedupSteps steps) C with hf
  have hmaps : ∀ k ∈ Finset.range (C.toFinset.card + 1), f^[k] a0 ∈ C.toFinset := by
    intro k _
    exact List.mem_toFinset.mpr (hiter k)
  have hcard : C.toFinset.card < (Finset.range (C.toFinset.card + 1)).card := by
    simp
  obtain ⟨x, hx, y, hy, hxy, hfeq⟩ :=
    Finset.exists_ne_map_eq_of_card_lt_of_maps_to hcard hmaps
  have hwlog : ∃ i j, i < j ∧ f^[i] a0 = f^[j] a0 := by
    rcases Nat.lt_or_ge x y with h | h
    · exact ⟨x, y, h, hfeq⟩
    · have : y < x := by omega
      exact ⟨y, x, this, hfeq.symm⟩
  obtain ⟨i, j, hij, hfij⟩ := hwlog
  refine ⟨(List.range (j - i)).map (fun k => f^[i + k] a0), ?_, ?_⟩
  · intro h
    have := congrArg List.length h
    simp only [List.length_map, List.length_range, List.length_nil] at this
    omega
  · intro idx
    obtain ⟨v, hv⟩ := idx
    have hvlt : v < j - i := by simpa using hv
    rw [List.get_eq_getElem, List.get_eq_getElem]
    simp only [List.getElem_map, List.getElem_range, List.length_map, List.length_range]
    have hmem : f^[i + v] a0 ∈ C := hiter _
    have hspec := succIn_spec (dedupSteps steps) hM C hmem hClosed
    have htarget : f^[i + ((v + 1) % (j - i))] a0 = f (f^[i + v] a0) := by
      by_cases hcase : v + 1 < j - i
      · rw [Nat.mod_eq_of_lt hcase]
        rw [← Function.iterate_succ_apply' f (i + v) a0]
        have harith : (i + v).succ = i + (v + 1) := by omega
        rw [harith]
      · have hval : v + 1 = j - i := by omega
        rw [hval, Nat.mod_self]
        have h1 : f^[i + 0] a0 = f^[j] a0 := by
          rw [← hfij]
          simp
        rw [h1]
        have h2 : f^[j] a0 = f^[(i + v) + 1] a0 := by
          congr 1
          omega
        rw [h2, Function.iterate_succ_apply']
    rw [htarget]
    rw [depEdge_eq_depEdgeOn]
    exact hspec.2

/-- In a stage list whose flattened ids are duplicate-free, two steps with
the same id can only sit in the same stage. -/
theorem stage_index_unique {stages : List (List PlanStep)}
    (hnd : (stages.flatten.map (fun s => s.id)).Nodup)
    {i j : Nat} (hi : i < stages.length) (hj : j < stages.length)
    {s t : PlanStep} (hs : s ∈ stages[i]) (ht : t ∈ stages[j]) (hid : s.id = t.id) :
    i = j := by
  by_contra hne
  rw [List.map_flatten] at hnd
  have hpair := (List.nodup_flatten.mp hnd).2
  rw [List.pairwise_iff_getElem] at hpair
  have hleni : i < (stages.map (List.map (fun s => s.id))).length := by simpa using hi
  have hlenj : j < (stages.map (List.map (fun s => s.id))).length := by simpa using hj
  have hmi : s.id ∈ (stages.map (List.map (fun s => s.id)))[i] := by
    rw [List.getElem_map]
    exact List.mem_map.mpr ⟨s, hs, rfl⟩
  have hmj : s.id ∈ (stages.map (List.map (fun s => s.id)))[j] := by
    rw [List.getElem_map]
    exact List.mem_map.mpr ⟨t, ht, hid.symm⟩
  rcases Nat.lt_or_ge i j with hlt | hge
  · exact (hpair i j hleni hlenj hlt) hmi hmj
  · have hlt : j < i := by omega
    exact (hpair j i hlenj hleni hlt) hmj hmi

/-- A directed dependency cycle drives `get_execution_stages` into the
`ValueError` branch, and every id on the cycle is named by the error. -/
theorem getExecutionStages_cycle_error (steps : List PlanStep) (c : List Str)
    (h : IsDepCycle steps c) :
    ∃ l, getExecutionStages steps = .error l ∧ ∀ a ∈ c, a ∈ l := by
  obtain ⟨hcne, hedges⟩ := h
  have hClosed : ∀ a ∈ c, ∃ b ∈ c, depEdgeOn (dedupSteps steps) a b = true := by
    intro a ha
    obtain ⟨i, hi⟩ := List.mem_iff_get.mp ha
    refine ⟨c.get ⟨(i.val + 1) % c.length, Nat.mod_lt _ i.pos⟩, List.get_mem _ _ _, ?_⟩
    have := hedges i
    rw [depEdge_eq_depEdgeOn] at this
    rw [hi] at this
    exact this
  have hCsub : ∀ a ∈ c, a ∈ (dedupSteps steps).map (fun t => t.id) := by
    intro a ha
    obtain ⟨b, _, hedge⟩ := hClosed a ha
    rw [depEdgeOn, List.any_eq_true] at hedge
    obtain ⟨s, hsm, hscond⟩ := hedge
    rw [Bool.and_eq_true] at hscond
    have : s.id = a := by simpa using hscond.1
    exact List.mem_map.mpr ⟨s, hsm, this⟩
  by_cases hempty : steps.isEmpty
  · exfalso
    obtain ⟨a0, ha0⟩ := List.exists_mem_of_ne_nil c hcne
    have := hCsub a0 ha0
    have hnil : steps = [] := List.isEmpty_iff.mp hempty
    rw [hnil] at this
    simp [dedupSteps] at this
  · obtain ⟨l, herr, hsub⟩ := stagesLoop_closed_error (dedupSteps steps) steps.length
      (dedupSteps_nodup steps) (dedupSteps_length steps) c hcne hCsub hClosed
      (steps.length + 1) [] (by simp) (by simp) (by simp) (by simp)
    refine ⟨l, ?_, hsub⟩
    rw [getExecutionStages, if_neg hempty]
    exact herr

/-- Claim C1: for every plan whose steps have unique ids, whose `dependsOn`
entries all reference existing step ids, and whose dependency graph is
acyclic, `ProjectPlan.get_execution_stages` returns (does not raise) a list
of stages whose in-order flattening is a topological order of the
dependency graph: every step sits in a strictly later stage than every step
it depends on. -/
theorem C1_stages_topological (steps : List PlanStep)
    (hnodup : (steps.map (fun s => s.id)).Nodup)
    (hdeps : ∀ s ∈ steps, ∀ d ∈ s.depends_on, d ∈ steps.map (fun t => t.id))
    (hacyc : ∀ c, ¬ IsDepCycle steps c) :
    ∃ stages, getExecutionStages steps = .ok stages ∧
      ∀ i j (hi : i < stages.length) (hj : j < stages.length),
        ∀ s ∈ stages[i], ∀ t ∈ stages[j], t.id ∈ s.depends_on → j < i := by
  by_cases hempty : steps.isEmpty
  · refine ⟨[], ?_, ?_⟩
    · rw [getExecutionStages, if_pos hempty]
    · intro i j hi hj
      simp at hi
  · have hdd : dedupSteps steps = steps := dedupSteps_eq_self hnodup
    have hges : getExecutionStages steps =
        stagesLoop steps steps.length (steps.length + 1) [] := by
      rw [getExecutionStages, if_neg hempty, hdd]
    cases hres : stagesLoop steps steps.length (steps.length + 1) [] with
    | error l =>
      exfalso
      obtain ⟨hlne, hlclosed⟩ := stagesLoop_error_closed steps steps.length hnodup rfl
        hdeps _ [] l (by simp) (by simp) hres
      have hClosed2 : ∀ a ∈ l, ∃ b ∈ l, depEdgeOn (dedupSteps steps) a b = true := by
        rw [hdd]
        exact hlclosed
      obtain ⟨c, hc⟩ := closed_to_cycle steps l hlne hClosed2
      exact hacyc c hc
    | ok stages =>
      refine ⟨stages, by rw [hges, hres], ?_⟩
      obtain ⟨_, hnd, _⟩ := stagesLoop_ok_partition steps steps.length hnodup le_rfl
        _ [] stages (by simp) (by simp) (by simp) hres
      have hdeps2 := stagesLoop_ok_deps steps steps.length _ [] stages hres
      intro i j hi hj s hsmem t htmem htid
      have hB := hdeps2 i hi s hsmem t.id htid
      rcases hB with h | h
      · simp at h
      · rw [List.mem_map] at h
        obtain ⟨u, humem, huid⟩ := h
        rw [List.mem_flatten] at humem
        obtain ⟨st, hstmem, hust⟩ := humem
        rw [List.mem_take_iff_getElem] at hstmem
        obtain ⟨j2, hj2, hj2eq⟩ := hstmem
        have hj2i : j2 < i := lt_of_lt_of_le hj2 (min_le_left _ _)
        have hj2len : j2 < stages.length := lt_of_lt_of_le hj2 (min_le_right _ _)
        have hueq : u ∈ stages[j2] := by rw [hj2eq]; exact hust
        have : j2 = j := stage_index_unique hnd hj2len hj hueq htmem (by rw [huid])
        omega

/-- Claim C3: a plan whose dependency graph contains a cycle makes
`get_execution_stages` raise (the `ValueError` standing for the spec's
`CycleError`), and the raised message names the unstageable ids — in
particular every id on the cycle, so both ids of a two-step cycle. -/
theorem C3_cycle_raises (steps : List PlanStep) (c : List Str)
    (h : IsDepCycle steps c) :
    ∃ l, getExecutionStages steps = .error l ∧ ∀ a ∈ c, a ∈ l :=
  getExecutionStages_cycle_error steps c h

/-- Claim C10: whenever `get_execution_stages` returns without raising, the
stages partition the plan's step ids: no stage is empty, no id occurs in two
stages (nor twice in one), and an id occurs in some stage exactly when it is
an id of the plan. -/
theorem C10_stages_partition (steps : List PlanStep) (stages : List (List PlanStep))
    (h : getExecutionStages steps = .ok stages) :
    (∀ st ∈ stages, st ≠ []) ∧
    ((stages.flatten.map (fun s => s.id)).Nodup) ∧
    (∀ x, x ∈ stages.flatten.map (fun s => s.id) ↔ x ∈ steps.map (fun s => s.id)) := by
  by_cases hempty : steps.isEmpty
  · rw [getExecutionStages, if_pos hempty] at h
    cases h
    have hnil : steps = [] := List.isEmpty_iff.mp hempty
    subst hnil
    exact ⟨by simp, by simp, by simp⟩
  · rw [getExecutionStages, if_neg hempty] at h
    obtain ⟨h1, h2, h3⟩ := stagesLoop_ok_partition (dedupSteps steps) steps.length
      (dedupSteps_nodup steps) (dedupSteps_length steps) _ [] stages
      (by simp) (by simp) (by simp) h
    refine ⟨h1, h2, ?_⟩
    intro x
    rw [h3 x]
    constructor
    · intro hx
      exact (dedupSteps_mem steps x).mp hx.1
    · intro hx
      exact ⟨(dedupSteps_mem steps x).mpr hx, by simp⟩

/-!
### Concrete plans for the witnesses
-/

def stepConfig : PlanStep :=
  ⟨str "config", str "Game constants", [], str "simple", str "pending"⟩

def stepSnake : PlanStep :=
  ⟨str "snake", str "Snake class", [str "config"], str "medium", str "pending"⟩

def stepFood : PlanStep :=
  ⟨str "food", str "Food class", [str "config"], str "simple", str "pending"⟩

def stepCollision : PlanStep :=
  ⟨str "collision", str "Collision detection", [str "snake", str "food"],
    str "medium", str "pending"⟩

def stepGameLoop : PlanStep :=
  ⟨str "game_loop", str "Main game loop", [str "collision"], str "complex", str "pending"⟩

/-- The spec's diamond-dependency example plan. -/
def diamondSteps : List PlanStep :=
  [stepConfig, stepSnake, stepFood, stepCollision, stepGameLoop]

/-- The stages the diamond plan resolves to. -/
def diamondStages : List (List PlanStep) :=
  [[stepConfig], [stepSnake, stepFood], [stepCollision], [stepGameLoop]]

/-- The spec's two-step cycle: `a` depends on `b` and `b` depends on `a`. -/
def twoCycleSteps : List PlanStep :=
  [⟨str "a", str "Step A", [str "b"], str "medium", str "pending"⟩,
   ⟨str "b", str "Step B", [str "a"], str "medium", str "pending"⟩]

instance {α β : Type} [DecidableEq α] [DecidableEq β] : DecidableEq (Except α β) :=
  fun a b =>
    match a, b with
    | .error x, .error y =>
      if h : x = y then isTrue (by rw [h])
      else isFalse (fun h2 => by cases h2; exact h rfl)
    | .error _, .ok _ => isFalse (fun h => by cases h)
    | .ok _, .error _ => isFalse (fun h => by cases h)
    | .ok x, .ok y =>
      if h : x = y then isTrue (by rw [h])
      else isFalse (fun h2 => by cases h2; exact h rfl)

theorem diamond_stages_eval : getExecutionStages diamondSteps = .ok diamondStages := by
  decide

theorem diamond_acyclic : ∀ c, ¬ IsDepCycle diamondSteps c := by
  intro c hc
  obtain ⟨l, herr, _⟩ := getExecutionStages_cycle_error diamondSteps c hc
  rw [diamond_stages_eval] at herr
  cases herr

theorem C1_stages_topological_witness :
    ∃ stages, getExecutionStages diamondSteps = .ok stages ∧
      ∀ i j (hi : i < stages.length) (hj : j < stages.length),
        ∀ s ∈ stages[i], ∀ t ∈ stages[j], t.id ∈ s.depends_on → j < i :=
  C1_stages_topological diamondSteps (by decide) (by decide) diamond_acyclic

theorem C3_cycle_raises_witness :
    ∃ l, getExecutionStages twoCycleSteps = .error l ∧
      ∀ a ∈ [str "a", str "b"], a ∈ l :=
  C3_cycle_raises twoCycleSteps [str "a", str "b"] (by decide)

theorem C10_stages_partition_witness :
    (∀ st ∈ diamondStages, st ≠ []) ∧
    ((diamondStages.flatten.map (fun s => s.id)).Nodup) ∧
    (∀ x, x ∈ diamondStages.flatten.map (fun s => s.id) ↔
      x ∈ diamondSteps.map (fun s => s.id)) :=
  C10_stages_partition diamondSteps diamondStages (by decide)

/-!
## Execution data model (`app/models/execution.py`)
-/

/-- Builder output (`CodeOutput` dataclass). -/
structure CodeOutput where
  step_id : Str
  code : Str
  tests : Str
deriving Repr, DecidableEq

/-- A single review finding (`ReviewIssue` dataclass).  `suggestion` is
`str | None = None` in the source. -/
structure ReviewIssue where
  severity : Str
  category : Str
  message : Str
  suggestion : Option Str := none
deriving Repr, DecidableEq

/-- Reviewer output (`ReviewResult` dataclass). -/
structure ReviewResult where
  step_id : Str
  tests_passed : Bool
  test_output : Str
  review_passed : Bool
  issues : List ReviewIssue := []
deriving Repr, DecidableEq

/-- The `overall_passed` property: both tests and review passed. -/
def ReviewResult.overall_passed (r : ReviewResult) : Bool :=
  r.tests_passed && r.review_passed

/-- The `error_count` property: number of error-severity issues. -/
def ReviewResult.error_count (r : ReviewResult) : Nat :=
  r.issues.countP (fun i => i.severity == str "error")

/-- A finished build/review cycle (`CompletedStep` dataclass). -/
structure CompletedStep where
  step_id : Str
  code : Str
  tests : Str
  attempts : Nat
  passed : Bool := true
deriving Repr, DecidableEq

/-- DocGen output (`DocumentedCode` dataclass). -/
structure DocumentedCode where
  code : Str
  readme : Str
deriving Repr, DecidableEq

/-- Final output to the user (`ProjectResult` dataclass). -/
structure ProjectResult where
  code : Str
  tests : Str
  readme : Str
  total_steps : Nat
  total_attempts : Nat
  duration_ms : Nat
  success : Bool
  error_message : Option Str := none
deriving Repr, DecidableEq

/-!
## Review response parsing
(`app/agents/reviewer/software_reviewer_agent.py`, `_parse_review_response`)

Python list indexing `split(...)[1]` can in principle raise `IndexError`,
so the embedding threads `Except` through exactly those accesses; the
guards in the source make every access succeed (claim C8).
-/

def bMarker : Str := str "=== BLOCKING ==="

def nbMarker : Str := str "=== NON-BLOCKING ==="

def vMarker : Str := str "=== VERDICT ==="

/-- One line of an issues section: a `- ` list marker, split on the first
colon into message and suggestion (message only if no colon, nothing if the
rest of the line is empty). -/
def lineToIssue (sev cat : Str) (line0 : Str) : Option ReviewIssue :=
  let line := pyStrip line0
  if (str "-").isPrefixOf line then
    let line2 := pyStrip (line.drop 1)
    match splitFirst (str ":") line2 with
    | some (message, suggestion) =>
      some ⟨sev, cat, pyStrip message, some (pyStrip suggestion)⟩
    | none =>
      if line2.isEmpty then none
      else some ⟨sev, cat, line2, some []⟩
  else none

/-- The per-section `for line in section.split("\n")` loop, guarded by the
`section.lower() != "none" and section` check. -/
def parseIssuesSection (sect0 sev cat : Str) : List ReviewIssue :=
  let sect := pyStrip sect0
  if toLowerStr sect ≠ str "none" ∧ sect ≠ [] then
    (splitOnStr (str "\n") sect).filterMap (lineToIssue sev cat)
  else []

/-- Cut the BLOCKING section at the next section marker. -/
def cutBlocking (sect : Str) : Str :=
  if containsStr nbMarker sect then splitHead nbMarker sect
  else if containsStr vMarker sect then splitHead vMarker sect
  else sect

/-- Cut the NON-BLOCKING section at the verdict marker. -/
def cutNonblocking (sect : Str) : Str :=
  if containsStr vMarker sect then splitHead vMarker sect
  else sect

def blockingOf (response : Str) : Except Str (List ReviewIssue) :=
  if containsStr bMarker response then
    match pyIndex (splitOnStr bMarker response) 1 with
    | .error e => .error e
    | .ok sect => .ok (parseIssuesSection (cutBlocking sect) (str "error") (str "blocking"))
  else .ok []

def nonblockingOf (response : Str) : Except Str (List ReviewIssue) :=
  if containsStr nbMarker response then
    match pyIndex (splitOnStr nbMarker response) 1 with
    | .error e => .error e
    | .ok sect =>
      .ok (parseIssuesSection (cutNonblocking sect) (str "warning") (str "non-blocking"))
  else .ok []

/-- The VERDICT section: first line of the section, uppercased, passes iff
it mentions PASS; with no verdict section, pass iff no error-severity issue
was parsed. -/
def verdictOf (response : Str) (issues : List ReviewIssue) : Except Str Bool :=
  if containsStr vMarker response then
    match pyIndex (splitOnStr vMarker response) 1 with
    | .error e => .error e
    | .ok vs =>
      .ok (containsStr (str "PASS") (toUpperStr (pyStrip (splitHead (str "\n") (pyStrip vs)))))
  else .ok (issues.countP (fun i => i.severity == str "error") == 0)

/-- Embedding of `_parse_review_response`. -/
def parseReviewResponse (resp : Str) : Except Str (List ReviewIssue × Bool) :=
  let response := pyStrip resp
  match blockingOf response with
  | .error e => .error e
  | .ok bIssues =>
    match nonblockingOf response with
    | .error e => .error e
    | .ok nbIssues =>
      match verdictOf response (bIssues ++ nbIssues) with
      | .error e => .error e
      | .ok passed => .ok (bIssues ++ nbIssues, passed)

theorem blockingOf_ok (response : Str) : ∃ l, blockingOf response = .ok l := by
  rw [blockingOf]
  by_cases h : containsStr bMarker response
  · rw [if_pos h]
    obtain ⟨x, hx⟩ := pyIndex_one_of_contains (by decide) response h
    rw [hx]
    exact ⟨_, rfl⟩
  · rw [if_neg h]
    exact ⟨[], rfl⟩

theorem nonblockingOf_ok (response : Str) : ∃ l, nonblockingOf response = .ok l := by
  rw [nonblockingOf]
  by_cases h : containsStr nbMarker response
  · rw [if_pos h]
    obtain ⟨x, hx⟩ := pyIndex_one_of_contains (by decide) response h
    rw [hx]
    exact ⟨_, rfl⟩
  · rw [if_neg h]
    exact ⟨[], rfl⟩

theorem verdictOf_ok (response : Str) (issues : List ReviewIssue) :
    ∃ b, verdictOf response issues = .ok b := by
  rw [verdictOf]
  by_cases h : containsStr vMarker response
  · rw [if_pos h]
    obtain ⟨x, hx⟩ := pyIndex_one_of_contains (by decide) response h
    rw [hx]
    exact ⟨_, rfl⟩
  · rw [if_neg h]
    exact ⟨_, rfl⟩

/-- The review parser never raises, and with no verdict section its verdict
is pass-iff-no-blocking-issue. -/
theorem parseReviewResponse_eval (s : Str) :
    ∃ issues passed, parseReviewResponse s = .ok (issues, passed) ∧
      (containsStr vMarker (pyStrip s) = false →
        passed = (issues.countP (fun i => i.severity == str "error") == 0)) := by
  obtain ⟨bIssues, hb⟩ := blockingOf_ok (pyStrip s)
  obtain ⟨nbIssues, hnb⟩ := nonblockingOf_ok (pyStrip s)
  obtain ⟨passed, hv⟩ := verdictOf_ok (pyStrip s) (bIssues ++ nbIssues)
  refine ⟨bIssues ++ nbIssues, passed, ?_, ?_⟩
  · rw [parseReviewResponse, hb, hnb]
    simp only [hv]
  · intro hnov
    rw [verdictOf, hnov] at hv
    simp only [Bool.false_eq_true, if_false] at hv
    cases hv
    rfl

/-- Claim C6: the canonical all-clear review response parses to zero issues
with `passed = true`; and on any input with no verdict section the parser
returns `passed = true` exactly when it parsed zero error-severity
(blocking) issues — so blocking text with no verdict section yields
`passed = false`. -/
theorem C6_review_parser_verdict :
    parseReviewResponse
      (str "=== BLOCKING ===\nNone\n=== NON-BLOCKING ===\nNone\n=== VERDICT ===\nPASS") =
      .ok ([], true) ∧
    ∀ s, containsStr vMarker (pyStrip s) = false →
      ∃ issues, parseReviewResponse s =
        .ok (issues, issues.countP (fun i => i.severity == str "error") == 0) := by
  constructor
  · decide
  · intro s hnov
    obtain ⟨issues, passed, hok, hp⟩ := parseReviewResponse_eval s
    refine ⟨issues, ?_⟩
    rw [hok, hp hnov]

theorem C6_review_parser_verdict_witness :
    (∃ issues, parseReviewResponse (str "=== BLOCKING ===\n- broken: fix it") =
      .ok (issues, issues.countP (fun i => i.severity == str "error") == 0)) ∧
    (parseReviewResponse (str "=== BLOCKING ===\n- broken: fix it")).map (fun p => p.2) =
      .ok false :=
  ⟨C6_review_parser_verdict.2 _ (by decide), by decide⟩

/-!
## The reviewer agent
(`app/agents/reviewer/software_reviewer_agent.py`, `SoftwareReviewerAgent`)

The AST syntax checker (`ast.parse`) is an oracle parameter returning the
`SyntaxError` data (line and message) or `none`; the LLM backend is an
oracle from prompt to response content.  The second component of the result
counts LLM `generate` calls.  Event emission is effect-free and not
modelled.
-/

/-- The data of a Python `SyntaxError` as used by `_check_syntax`. -/
structure SynError where
  lineno : Nat
  msg : Str
deriving Repr, DecidableEq

/-- Embedding of `SoftwareReviewerAgent._check_syntax`. -/
def checkSyntax (astError : Str → Option SynError) (code context : Str) : Bool × Str :=
  if code.isEmpty || (pyStrip code).isEmpty then
    (false, str "No " ++ context ++ str " was provided")
  else
    match astError code with
    | none => (true, [])
    | some e =>
      (false, str "Syntax error in " ++ context ++ str " at line " ++
        natToStr e.lineno ++ str ": " ++ e.msg)

/-- The `REVIEWER_TEMPLATE` f-string. -/
def reviewerTemplate (task code testsSection : Str) : Str :=
  str "TASK: " ++ task ++ str "\n\nCODE TO REVIEW:\n```python\n" ++ code ++
  str "\n```\n\n" ++ testsSection ++
  str "\n\nReview this code. Does it correctly implement the task? " ++
  str "Are there any bugs or missing functionality?\n" ++
  str "Remember: BLOCKING issues = must fix, NON-BLOCKING = nice to have."

/-- Embedding of `SoftwareReviewerAgent.execute`; the returned number is
how many LLM `generate` calls were made. -/
def reviewerExecute (astError : Str → Option SynError) (llm : Str → Str)
    (co : CodeOutput) (task : Str) : Except Str (ReviewResult × Nat) :=
  let syntaxResult := checkSyntax astError co.code (str "code")
  if syntaxResult.1 = false then
    .ok ({ step_id := co.step_id, tests_passed := false, test_output := [],
           review_passed := false,
           issues := [⟨str "error", str "syntax", syntaxResult.2,
             some (str "Fix the syntax error before the code can run")⟩] }, 0)
  else
    let testsSection :=
      if !co.tests.isEmpty then str "TESTS:\n```python\n" ++ co.tests ++ str "\n```"
      else []
    let reviewPrompt := reviewerTemplate
      (if !task.isEmpty then task else str "Generate Python code") co.code testsSection
    match parseReviewResponse (llm reviewPrompt) with
    | .error e => .error e
    | .ok (reviewIssues, _) =>
      let errorCount := reviewIssues.countP (fun i => i.severity == str "error")
      .ok ({ step_id := co.step_id, tests_passed := true, test_output := [],
             review_passed := (errorCount == 0), issues := reviewIssues }, 1)

/-- Any reviewer-produced result with a blocking (error-severity) issue
fails overall: blocking issues force the retry/fail transition. -/
theorem reviewerExecute_blocking_fails (astError : Str → Option SynError)
    (llm : Str → Str) (co : CodeOutput) (task : Str) (r : ReviewResult) (n : Nat)
    (h : reviewerExecute astError llm co task = .ok (r, n))
    (hb : 0 < r.error_count) : r.overall_passed = false := by
  rw [reviewerExecute] at h
  by_cases hsyn : (checkSyntax astError co.code (str "code")).1 = false
  · rw [if_pos hsyn] at h
    cases h
    rfl
  · rw [if_neg hsyn] at h
    cases hp : parseReviewResponse (llm (reviewerTemplate
        (if !task.isEmpty then task else str "Generate Python code") co.code
        (if !co.tests.isEmpty then str "TESTS:\n```python\n" ++ co.tests ++ str "\n```"
         else []))) with
    | error e =>
      simp only [hp] at h
      cases h
    | ok p =>
      obtain ⟨issues, passed⟩ := p
      simp only [hp] at h
      cases h
      rw [ReviewResult.overall_passed]
      simp only [Bool.true_and]
      rw [ReviewResult.error_count] at hb
      simp only at hb
      cases hc : issues.countP (fun i => i.severity == str "error") with
      | zero => omega
      | succ k => rfl

/-- Claim C5: a `CodeOutput` whose code is empty, whitespace-only, or
rejected by the local AST syntax check makes `SoftwareReviewerAgent.execute`
return a failed `ReviewResult` holding exactly one error-severity,
syntax-category issue, with zero LLM calls. -/
theorem C5_reviewer_syntax_shortcircuit (astError : Str → Option SynError)
    (llm : Str → Str) (co : CodeOutput) (task : Str)
    (h : co.code = [] ∨ pyStrip co.code = [] ∨ astError co.code ≠ none) :
    ∃ r, reviewerExecute astError llm co task = .ok (r, 0) ∧
      r.overall_passed = false ∧
      r.issues.length = 1 ∧
      ∀ i ∈ r.issues, i.severity = str "error" ∧ i.category = str "syntax" := by
  have hfail : (checkSyntax astError co.code (str "code")).1 = false := by
    rw [checkSyntax]
    by_cases hempty : co.code.isEmpty || (pyStrip co.code).isEmpty
    · rw [if_pos hempty]
    · rw [if_neg hempty]
      rcases h with h | h | h
      · exfalso
        apply hempty
        rw [h]
        simp
      · exfalso
        apply hempty
        rw [h]
        simp
      · cases hast : astError co.code with
        | none => exact absurd hast h
        | some e => rfl
  rw [reviewerExecute, if_pos hfail]
  refine ⟨_, rfl, ?_, ?_, ?_⟩
  · rfl
  · rfl
  · intro i hi
    simp only [List.mem_singleton] at hi
    subst hi
    exact ⟨rfl, rfl⟩

theorem C5_reviewer_syntax_shortcircuit_witness :
    ∃ r, reviewerExecute (fun _ => none) (fun _ => [])
        ⟨str "main", [], str "tests"⟩ (str "a task") = .ok (r, 0) ∧
      r.overall_passed = false ∧
      r.issues.length = 1 ∧
      ∀ i ∈ r.issues, i.severity = str "error" ∧ i.category = str "syntax" :=
  C5_reviewer_syntax_shortcircuit (fun _ => none) (fun _ => [])
    ⟨str "main", [], str "tests"⟩ (str "a task") (Or.inl rfl)

/-!
## Builder response parsing
(`app/agents/builder/software_builder_agent.py`,
`_strip_markdown_code_blocks` and `_parse_builder_response`)

The regex findall over `r"```(?:python)?\s*\n?(.*?)```"` is embedded as a
left-to-right scan: at the first fence, optionally consume a `python` tag,
then take the (stripped) content up to the earliest closing fence and
continue after it; with no closing fence no further match is possible, since
no fence occurrence remains.  The `\s*\n?` prefix the regex eats is erased
anyway because every captured group is `strip()`ed before joining.
-/

def fenceStr : Str := str "```"

def pythonTag : Str := str "python"

def extractBlocksFuel : Nat → Str → List Str
  | 0, _ => []
  | fuel + 1, l =>
    match splitFirst fenceStr l with
    | none => []
    | some (_, rest) =>
      let rest2 := if pythonTag.isPrefixOf rest then rest.drop 6 else rest
      match splitFirst fenceStr rest2 with
      | none => []
      | some (content, rest3) => pyStrip content :: extractBlocksFuel fuel rest3

/-- All fenced code blocks of the text, each already `strip()`ed (the
`re.findall` plus the per-match `strip` of the join). -/
def extractBlocks (l : Str) : List Str := extractBlocksFuel (l.length + 1) l

/-- Python list indexing `l[-1]`, which raises `IndexError` on `[]`. -/
def pyLast {α : Type} (l : List α) : Except Str α :=
  match l.getLast? with
  | some x => .ok x
  | none => .error (str "IndexError")

/-- The no-blocks branch of `_strip_markdown_code_blocks`: on text that
starts with a fence, drop the first line if it is exactly ```` ```python ````
or ```` ``` ````, and a trailing line that is exactly ```` ``` ````. -/
def stripFenceLines (t : Str) : Except Str Str :=
  let lines := splitOnStr (str "\n") t
  match pyIndex lines 0 with
  | .error e => .error e
  | .ok first =>
    let lines2 :=
      if pyStrip first = str "```python" ∨ pyStrip first = str "```"
      then lines.drop 1 else lines
    let lines3 :=
      if lines2 ≠ [] ∧ pyStrip (lines2.getLastD []) = str "```"
      then lines2.dropLast else lines2
    .ok (pyStrip (List.intercalate (str "\n") lines3))

/-- Embedding of `_strip_markdown_code_blocks`. -/
def stripMarkdownCodeBlocks (text : Str) : Except Str Str :=
  let blocks := extractBlocks text
  if blocks ≠ [] then
    .ok (List.intercalate (str "\n\n") blocks)
  else
    let t := pyStrip text
    if fenceStr.isPrefixOf t then stripFenceLines t
    else .ok t

def codeMarker : Str := str "=== CODE ==="

def testsMarker : Str := str "=== TESTS ==="

/-- Embedding of `_parse_builder_response`. -/
def parseBuilderResponse (resp : Str) : Except Str (Str × Str) :=
  let response := pyStrip resp
  if containsStr codeMarker response ∧ containsStr testsMarker response then
    let parts := splitOnStr testsMarker response
    if parts.length = 2 then
      match pyIndex parts 0 with
      | .error e => .error e
      | .ok p0 =>
        match pyIndex parts 1 with
        | .error e => .error e
        | .ok p1 =>
          let codePart := pyStrip (List.intercalate [] (splitOnStr codeMarker p0))
          let testsPart := pyStrip p1
          match stripMarkdownCodeBlocks codePart with
          | .error e => .error e
          | .ok code =>
            match stripMarkdownCodeBlocks testsPart with
            | .error e => .error e
            | .ok tests => .ok (code, tests)
    else .ok ([], [])
  else if containsStr codeMarker response then
    match pyLast (splitOnStr codeMarker response) with
    | .error e => .error e
    | .ok lastPart =>
      match stripMarkdownCodeBlocks (pyStrip lastPart) with
      | .error e => .error e
      | .ok code => .ok (code, [])
  else
    match stripMarkdownCodeBlocks response with
    | .error e => .error e
    | .ok code => .ok (code, [])

theorem pyIndex_ok_of_lt {α : Type} (l : List α) (i : Nat) (h : i < l.length) :
    ∃ x, pyIndex l i = .ok x := by
  rw [pyIndex]
  cases hg : l.get? i with
  | none =>
    rw [List.get?_eq_getElem?] at hg
    rw [List.getElem?_eq_none_iff] at hg
    omega
  | some x => exact ⟨x, rfl⟩

theorem pyLast_ok_of_ne_nil {α : Type} (l : List α) (h : l ≠ []) :
    ∃ x, pyLast l = .ok x := by
  rw [pyLast]
  cases hg : l.getLast? with
  | none =>
    rw [List.getLast?_eq_none_iff] at hg
    exact absurd hg h
  | some x => exact ⟨x, rfl⟩

theorem stripFenceLines_ok (t : Str) : ∃ v, stripFenceLines t = .ok v := by
  rw [stripFenceLines]
  have hne := splitOnStr_ne_nil (str "\n") t
  have hlen : 0 < (splitOnStr (str "\n") t).length := List.length_pos.mpr hne
  obtain ⟨x, hx⟩ := pyIndex_ok_of_lt _ 0 hlen
  rw [hx]
  exact ⟨_, rfl⟩

theorem stripMarkdownCodeBlocks_ok (t : Str) :
    ∃ v, stripMarkdownCodeBlocks t = .ok v := by
  rw [stripMarkdownCodeBlocks]
  by_cases hb : extractBlocks t ≠ []
  · rw [if_pos hb]
    exact ⟨_, rfl⟩
  · rw [if_neg hb]
    by_cases hf : fenceStr.isPrefixOf (pyStrip t)
    · rw [if_pos hf]
      exact stripFenceLines_ok _
    · rw [if_neg hf]
      exact ⟨_, rfl⟩

/-- The builder parser never raises. -/
theorem parseBuilderResponse_ok (s : Str) : ∃ v, parseBuilderResponse s = .ok v := by
  rw [parseBuilderResponse]
  by_cases hcm : containsStr codeMarker (pyStrip s) ∧ containsStr testsMarker (pyStrip s)
  · rw [if_pos hcm]
    by_cases hlen : (splitOnStr testsMarker (pyStrip s)).length = 2
    · rw [if_pos hlen]
      obtain ⟨p0, hp0⟩ := pyIndex_ok_of_lt (splitOnStr testsMarker (pyStrip s)) 0 (by omega)
      obtain ⟨p1, hp1⟩ := pyIndex_ok_of_lt (splitOnStr testsMarker (pyStrip s)) 1 (by omega)
      rw [hp0, hp1]
      obtain ⟨c, hc⟩ := stripMarkdownCodeBlocks_ok
        (pyStrip (List.intercalate [] (splitOnStr codeMarker p0)))
      obtain ⟨tst, ht⟩ := stripMarkdownCodeBlocks_ok (pyStrip p1)
      simp only [hc, ht]
      exact ⟨_, rfl⟩
    · rw [if_neg hlen]
      exact ⟨_, rfl⟩
  · rw [if_neg hcm]
    by_cases hc2 : containsStr codeMarker (pyStrip s)
    · rw [if_pos hc2]
      obtain ⟨lastPart, hl⟩ := pyLast_ok_of_ne_nil _ (splitOnStr_ne_nil codeMarker (pyStrip s))
      rw [hl]
      obtain ⟨c, hc⟩ := stripMarkdownCodeBlocks_ok (pyStrip lastPart)
      simp only [hc]
      exact ⟨_, rfl⟩
    · rw [if_neg hc2]
      obtain ⟨c, hc⟩ := stripMarkdownCodeBlocks_ok (pyStrip s)
      rw [hc]
      exact ⟨_, rfl⟩

/-!
### Occurrence counting and after-last-occurrence, for relating the
`split`-based code to the claim's wording
-/

def occCountFuel (sep : Str) : Nat → Str → Nat
  | 0, _ => 0
  | fuel + 1, l =>
    match splitFirst sep l with
    | none => 0
    | some (_, a) => occCountFuel sep fuel a + 1

/-- Number of non-overlapping occurrences of `sep`, leftmost first. -/
def occCount (sep l : Str) : Nat := occCountFuel sep (l.length + 1) l

def afterLastFuel (sep : Str) : Nat → Str → Str
  | 0, l => l
  | fuel + 1, l =>
    match splitFirst sep l with
    | none => l
    | some (_, a) => afterLastFuel sep fuel a

/-- The text after the last occurrence of `sep` (the whole text if none). -/
def afterLast (sep l : Str) : Str := afterLastFuel sep (l.length + 1) l

theorem splitOnFuel_length_eq {sep : Str} (hsep : sep ≠ []) :
    ∀ fuel l, l.length < fuel →
      (splitOnFuel sep fuel l).length = occCountFuel sep fuel l + 1 := by
  intro fuel
  induction fuel with
  | zero => intro l h; omega
  | succ f ih =>
    intro l h
    simp only [splitOnFuel, occCountFuel]
    cases hsf : splitFirst sep l with
    | none => rfl
    | some p =>
      obtain ⟨b, a⟩ := p
      have hlen := splitFirst_length hsf
      have hseplen : 1 ≤ sep.length := by
        cases sep with
        | nil => exact absurd rfl hsep
        | cons x xs => simp
      simp only [List.length_cons]
      rw [ih a (by omega)]

theorem splitOnStr_length_occ {sep : Str} (hsep : sep ≠ []) (l : Str) :
    (splitOnStr sep l).length = occCount sep l + 1 := by
  have hne : sep.isEmpty = false := by
    cases sep with
    | nil => exact absurd rfl hsep
    | cons x xs => rfl
  rw [splitOnStr, occCount, if_neg (by simp [hne])]
  exact splitOnFuel_length_eq hsep _ l (by omega)

theorem pyLast_splitOnFuel {sep : Str} (hsep : sep ≠ []) :
    ∀ fuel l, l.length < fuel →
      pyLast (splitOnFuel sep fuel l) = .ok (afterLastFuel sep fuel l) := by
  intro fuel
  induction fuel with
  | zero => intro l h; omega
  | succ f ih =>
    intro l h
    cases hsf : splitFirst sep l with
    | none => simp [splitOnFuel, afterLastFuel, hsf, pyLast]
    | some p =>
      obtain ⟨b, a⟩ := p
      simp only [splitOnFuel, afterLastFuel, hsf]
      have hlen := splitFirst_length hsf
      have hseplen : 1 ≤ sep.length := by
        cases sep with
        | nil => exact absurd rfl hsep
        | cons x xs => simp
      have ha : a.length < f := by omega
      have hrest := ih a ha
      have hrestne : splitOnFuel sep f a ≠ [] := by
        intro hnil
        rw [hnil] at hrest
        rw [pyLast] at hrest
        simp only [List.getLast?_nil] at hrest
        cases hrest
      cases hrl : splitOnFuel sep f a with
      | nil => exact absurd hrl hrestne
      | cons x xs =>
        rw [hrl] at hrest
        rw [pyLast] at hrest ⊢
        rw [List.getLast?_cons_cons]
        exact hrest

theorem pyLast_splitOnStr {sep : Str} (hsep : sep ≠ []) (l : Str) :
    pyLast (splitOnStr sep l) = .ok (afterLast sep l) := by
  have hne : sep.isEmpty = false := by
    cases sep with
    | nil => exact absurd rfl hsep
    | cons x xs => rfl
  rw [splitOnStr, afterLast, if_neg (by simp [hne])]
  exact pyLast_splitOnFuel hsep _ l (by omega)

theorem splitOnStr_eq_pair {sep l : Str} (hsep : sep ≠ [])
    (h : (splitOnStr sep l).length = 2) :
    ∃ b a, splitFirst sep l = some (b, a) ∧ splitOnStr sep l = [b, a] ∧
      splitFirst sep a = none := by
  rw [splitOnStr_eq hsep] at h
  cases hsf : splitFirst sep l with
  | none =>
    rw [hsf] at h
    simp at h
  | some p =>
    obtain ⟨b, a⟩ := p
    rw [hsf] at h
    simp only [List.length_cons] at h
    have h1 : (splitOnStr sep a).length = 1 := by omega
    cases hsa : splitFirst sep a with
    | none =>
      refine ⟨b, a, rfl, ?_, hsa⟩
      rw [splitOnStr_eq hsep]
      simp only [hsf]
      rw [splitOnStr_eq hsep]
      simp only [hsa]
    | some q =>
      obtain ⟨b2, a2⟩ := q
      rw [splitOnStr_eq hsep] at h1
      rw [hsa] at h1
      simp only [List.length_cons] at h1
      have hne := splitOnStr_ne_nil sep a2
      have hpos : 0 < (splitOnStr sep a2).length := List.length_pos.mpr hne
      omega

/-!
### Claim C7: the spec's description of the builder parser, verbatim and
amended

`claimParseBuilder` renders the claim's wording: split on the tests marker
into two halves, unwrap fenced blocks from each half; with only the code
marker, everything after it is the code; with neither, the whole cleaned
text is.  Unwrapping with no complete fenced block but a leading fence line
drops that first line unconditionally.  `amendedParseBuilder` is the same
description corrected to the code's actual behavior: the first line is
dropped only when it is exactly ```` ```python ```` or ```` ``` ````, a
tests marker occurring more than once empties both outputs, and the
code-only branch takes the text after the last marker occurrence.
-/

def claimStripWrapper (text : Str) : Str :=
  let blocks := extractBlocks text
  if blocks ≠ [] then List.intercalate (str "\n\n") blocks
  else
    let t := pyStrip text
    if fenceStr.isPrefixOf t then
      let lines := (splitOnStr (str "\n") t).drop 1
      let lines2 :=
        if lines ≠ [] ∧ pyStrip (lines.getLastD []) = str "```"
        then lines.dropLast else lines
      pyStrip (List.intercalate (str "\n") lines2)
    else t

def claimParseBuilder (resp : Str) : Str × Str :=
  let response := pyStrip resp
  if containsStr codeMarker response ∧ containsStr testsMarker response then
    match splitFirst testsMarker response with
    | some (h1, h2) =>
      (claimStripWrapper (pyStrip (List.intercalate [] (splitOnStr codeMarker h1))),
       claimStripWrapper (pyStrip h2))
    | none => ([], [])
  else if containsStr codeMarker response then
    match splitFirst codeMarker response with
    | some (_, rest) => (claimStripWrapper (pyStrip rest), [])
    | none => ([], [])
  else (claimStripWrapper response, [])

def amendedStrip (text : Str) : Str :=
  let blocks := extractBlocks text
  if blocks ≠ [] then List.intercalate (str "\n\n") blocks
  else
    let t := pyStrip text
    if fenceStr.isPrefixOf t then
      let lines := splitOnStr (str "\n") t
      let lines2 :=
        if pyStrip (lines.headD []) = str "```python" ∨ pyStrip (lines.headD []) = str "```"
        then lines.drop 1 else lines
      let lines3 :=
        if lines2 ≠ [] ∧ pyStrip (lines2.getLastD []) = str "```"
        then lines2.dropLast else lines2
      pyStrip (List.intercalate (str "\n") lines3)
    else t

def amendedParseBuilder (resp : Str) : Str × Str :=
  let response := pyStrip resp
  if containsStr codeMarker response ∧ containsStr testsMarker response then
    if occCount testsMarker response = 1 then
      match splitFirst testsMarker response with
      | some (h1, h2) =>
        (amendedStrip (pyStrip (List.intercalate [] (splitOnStr codeMarker h1))),
         amendedStrip (pyStrip h2))
      | none => ([], [])
    else ([], [])
  else if containsStr codeMarker response then
    (amendedStrip (pyStrip (afterLast codeMarker response)), [])
  else (amendedStrip response, [])

theorem stripMarkdown_eq_amended (t : Str) :
    stripMarkdownCodeBlocks t = .ok (amendedStrip t) := by
  rw [stripMarkdownCodeBlocks, amendedStrip]
  by_cases hb : extractBlocks t ≠ []
  · rw [if_pos hb, if_pos hb]
  · rw [if_neg hb, if_neg hb]
    by_cases hf : fenceStr.isPrefixOf (pyStrip t)
    · rw [if_pos hf, if_pos hf]
      rw [stripFenceLines]
      have hne := splitOnStr_ne_nil (str "\n") (pyStrip t)
      cases hl : splitOnStr (str "\n") (pyStrip t) with
      | nil => exact absurd hl hne
      | cons first rest =>
        simp only [pyIndex, List.get?_cons_zero, List.headD_cons]
    · rw [if_neg hf, if_neg hf]

/-- Counterexample to claim C7 as stated: on the response
```` ```ruby ````-newline-`X` (no markers, an unclosed non-python fence
line) the parser keeps the fence line, while the claim's description drops
it. -/
theorem C7_claim_counterexample :
    parseBuilderResponse (str "```ruby\nX") ≠
      .ok (claimParseBuilder (str "```ruby\nX")) := by
  decide

/-- Claim C7 (amended): `_parse_builder_response` behaves exactly as the
claim describes once the stripping rule drops the first line only when it
is exactly ```` ```python ```` or ```` ``` ````, a tests marker occurring
more than once yields empty code and tests, and the code-only branch keeps
what follows the last marker occurrence. -/
theorem C7_builder_parse_amended (r : Str) :
    parseBuilderResponse r = .ok (amendedParseBuilder r) := by
  rw [parseBuilderResponse, amendedParseBuilder]
  by_cases hcm : containsStr codeMarker (pyStrip r) ∧ containsStr testsMarker (pyStrip r)
  · rw [if_pos hcm, if_pos hcm]
    have hocc := splitOnStr_length_occ (by decide : testsMarker ≠ []) (pyStrip r)
    by_cases hlen : (splitOnStr testsMarker (pyStrip r)).length = 2
    · rw [if_pos hlen]
      have hocc1 : occCount testsMarker (pyStrip r) = 1 := by omega
      rw [if_pos hocc1]
      obtain ⟨b, a, hsf, hpair, _⟩ := splitOnStr_eq_pair (by decide : testsMarker ≠ []) hlen
      rw [hpair, hsf]
      simp only [pyIndex, List.get?_cons_zero, List.get?_cons_succ]
      rw [stripMarkdown_eq_amended, stripMarkdown_eq_amended]
    · rw [if_neg hlen]
      have hocc1 : occCount testsMarker (pyStrip r) ≠ 1 := by omega
      rw [if_neg hocc1]
  · rw [if_neg hcm, if_neg hcm]
    by_cases hc2 : containsStr codeMarker (pyStrip r)
    · rw [if_pos hc2, if_pos hc2]
      rw [pyLast_splitOnStr (by decide : codeMarker ≠ [])]
      simp only
      rw [stripMarkdown_eq_amended]
    · rw [if_neg hc2, if_neg hc2]
      rw [stripMarkdown_eq_amended]

/-!
## Plan response parsing (`app/agents/planner/prompt.py`)

`json.loads` is an oracle `Str → Option Json` (`none` = `JSONDecodeError`);
the oracle returns the loaded document with dict keys already de-duplicated,
as `json.loads` does.  `str()` rendering of non-string JSON scalars follows
Python; the `repr`-style rendering of nested containers is abbreviated (no
claim depends on it, and the planner prompts instruct string fields).
-/

inductive Json where
  | null
  | bool (b : Bool)
  | num (n : Int)
  | str (s : Str)
  | arr (items : List Json)
  | obj (fields : List (Str × Json))

/-- Python `str()` of a JSON value. -/
def jsonToStr : Json → Str
  | .null => str "None"
  | .bool true => str "True"
  | .bool false => str "False"
  | .num n => (toString n).data
  | .str s => s
  | .arr _ => str "[...]"
  | .obj _ => str "{...}"

/-- Dict lookup on a loaded JSON object. -/
def jsonGet (fields : List (Str × Json)) (key : Str) : Option Json :=
  (fields.find? (fun p => p.1 == key)).map (fun p => p.2)

def jsonTag : Str := str "json"

/-- Embedding of `_extract_json`: first fenced block (with optional `json`
tag) if a complete one exists, else the stripped response. -/
def extractJson (response : Str) : Str :=
  let r := pyStrip response
  match splitFirst fenceStr r with
  | none => r
  | some (_, rest) =>
    let rest2 := if jsonTag.isPrefixOf rest then rest.drop 4 else rest
    match splitFirst fenceStr rest2 with
    | none => r
    | some (content, _) => pyStrip content

/-- Embedding of `_parse_step`: validate one step object. -/
def parseStepJson (stepData : Json) (existingIds : List Str) : Except Str PlanStep :=
  match stepData with
  | .obj fields =>
    match jsonGet fields (str "id") with
    | none => .error (str "Step missing required field id")
    | some idv =>
      match jsonGet fields (str "task") with
      | none => .error (str "Step missing required field task")
      | some taskv =>
        let stepId := jsonToStr idv
        let task := jsonToStr taskv
        if existingIds.contains stepId then .error (str "Duplicate step ID")
        else
          match jsonGet fields (str "depends_on") with
          | some (.arr ds) =>
            parseStepRest stepId task (ds.map jsonToStr) fields
          | some _ => .error (str "depends_on must be a list")
          | none => parseStepRest stepId task [] fields
  | _ => .error (str "Step must be an object")
where
  parseStepRest (stepId task : Str) (dependsOn : List Str)
      (fields : List (Str × Json)) : Except Str PlanStep :=
    let complexity0 :=
      match jsonGet fields (str "complexity") with
      | some c => jsonToStr c
      | none => str "medium"
    let complexity :=
      if complexity0 = str "simple" ∨ complexity0 = str "medium" ∨
          complexity0 = str "complex"
      then complexity0 else str "medium"
    .ok ⟨stepId, task, dependsOn, complexity, str "pending"⟩

/-- The step-parsing loop of `parse_llm_response`, accumulating seen ids. -/
def parseStepsLoop : List Json → List Str → Except Str (List PlanStep)
  | [], _ => .ok []
  | sd :: rest, ids =>
    match parseStepJson sd ids with
    | .error e => .error e
    | .ok step =>
      match parseStepsLoop rest (ids ++ [step.id]) with
      | .error e => .error e
      | .ok steps => .ok (step :: steps)

/-- Embedding of `parse_llm_response` (the only parser allowed to raise:
its `.error` cases are the `ValueError`s of the source). -/
def parseLlmResponse (loads : Str → Option Json) (response originalTask : Str) :
    Except Str ProjectPlan :=
  match loads (extractJson response) with
  | none => .error (str "Invalid JSON in LLM response")
  | some data =>
    match data with
    | .obj fields =>
      match jsonGet fields (str "reasoning") with
      | none => .error (str "Missing required field: reasoning")
      | some reasoningv =>
        match jsonGet fields (str "steps") with
        | none => .error (str "Missing required field: steps")
        | some stepsv =>
          match stepsv with
          | .arr stepsData =>
            if stepsData.isEmpty then .error (str "steps cannot be empty")
            else
              match parseStepsLoop stepsData [] with
              | .error e => .error e
              | .ok steps =>
                let ids := steps.map (fun s => s.id)
                if steps.all (fun s => s.depends_on.all (fun d => ids.contains d)) then
                  .ok ⟨originalTask, jsonToStr reasoningv, steps⟩
                else .error (str "Step depends on unknown step")
          | _ => .error (str "steps must be a list")
    | _ => .error (str "Expected JSON object")

/-- Claim C8: on every input the builder parser and the review parser
terminate with a value (their internal `split`-indexing never raises); only
the plan parser can raise, e.g. on undecodable JSON. -/
theorem C8_parsers_never_raise :
    (∀ s, ∃ v, parseBuilderResponse s = Except.ok v) ∧
    (∀ s, ∃ v, parseReviewResponse s = Except.ok v) ∧
    (∃ loads response task e, parseLlmResponse loads response task = Except.error e) := by
  refine ⟨parseBuilderResponse_ok, ?_, ?_⟩
  · intro s
    obtain ⟨issues, passed, hok, _⟩ := parseReviewResponse_eval s
    exact ⟨(issues, passed), hok⟩
  · exact ⟨fun _ => none, [], [], str "Invalid JSON in LLM response", rfl⟩

/-!
## The planner agent (`app/agents/planner/planner_agent.py` and
`prompt.py`: `is_complex_task`, `PlannerAgent.create_plan`)
-/

/-- `PlannerConfig` dataclass (defaults from the source). -/
structure PlannerConfig where
  max_steps : Nat := 10
  min_complexity_words : Nat := 15
  timeout_seconds : Nat := 30
deriving Repr, DecidableEq

/-- The `COMPLEXITY_KEYWORDS` list, verbatim. -/
def COMPLEXITY_KEYWORDS : List Str :=
  [str "game", str "application", str "app", str "website", str "api",
   str "server", str "client", str "with tests", str "with documentation",
   str "and", str "including", str "multiple", str "full", str "complete",
   str "system", str "service", str "platform", str "dashboard", str "crud",
   str "authentication", str "database"]

/-- Embedding of `is_complex_task`: word count at or above the threshold,
or any complexity keyword occurring as a substring of the lowercased task. -/
def is_complex_task (task : Str) (config : PlannerConfig) : Bool :=
  let taskLower := toLowerStr task
  if config.min_complexity_words ≤ (pyWords task).length then true
  else if COMPLEXITY_KEYWORDS.any (fun k => containsStr k taskLower) then true
  else false

/-- `format_planner_prompt`.  The prompt wording itself is a spec non-goal
(§1) and no claim depends on it; the embedding keeps only the data flow
(task and `max_steps` reach the prompt). -/
def formatPlannerPrompt (task : Str) (config : PlannerConfig) : Str :=
  str "PLANNER_USER_PROMPT:" ++ natToStr config.max_steps ++ str ":" ++ task

/-- `PlannerAgent._create_simple_plan`: the single-step plan. -/
def createSimplePlan (task : Str) : ProjectPlan :=
  ⟨task, str "Simple task - single step execution",
   [⟨str "main", task, [], str "simple", str "pending"⟩]⟩

/-- Embedding of `PlannerAgent.create_plan`: the complexity gate, the
single LLM decomposition call on the complex path, parsing, and the stage
computation the method performs before returning.  The second component
counts LLM `generate` calls; SSE event assembly is not modelled. -/
def createPlan (gen : Str → Str) (loads : Str → Option Json)
    (config : PlannerConfig) (task : Str) :
    Except Str (ProjectPlan × List (List PlanStep)) × Nat :=
  if is_complex_task task config then
    match parseLlmResponse loads (gen (formatPlannerPrompt task config)) task with
    | .error e => (.error e, 1)
    | .ok plan =>
      match getExecutionStages plan.steps with
      | .error _ => (.error (str "Circular dependency detected"), 1)
      | .ok stages => (.ok (plan, stages), 1)
  else
    let plan := createSimplePlan task
    match getExecutionStages plan.steps with
    | .error _ => (.error (str "Circular dependency detected"), 0)
    | .ok stages => (.ok (plan, stages), 0)

theorem stages_single (s : PlanStep) (h : s.depends_on = []) :
    getExecutionStages [s] = .ok [[s]] := by
  have hded : dedupSteps [s] = [s] := by
    simp [dedupSteps, dictInsert]
  rw [getExecutionStages]
  rw [if_neg (by simp)]
  rw [hded]
  simp only [List.length_cons, List.length_nil]
  rw [stagesLoop]
  rw [if_pos (by simp)]
  have hready : readyStepsOf [s] [] = [s] := by
    simp [readyStepsOf, h]
  rw [hready]
  rw [if_neg (by simp)]
  rw [stagesLoop]
  rw [if_neg (by simp)]

theorem is_complex_false_iff (task : Str) (config : PlannerConfig) :
    is_complex_task task config = false ↔
      ((pyWords task).length < config.min_complexity_words ∧
       ∀ k ∈ COMPLEXITY_KEYWORDS, containsStr k (toLowerStr task) = false) := by
  rw [is_complex_task]
  constructor
  · intro hcond
    by_cases hw : config.min_complexity_words ≤ (pyWords task).length
    · rw [if_pos hw] at hcond
      cases hcond
    · rw [if_neg hw] at hcond
      by_cases hk : COMPLEXITY_KEYWORDS.any (fun k => containsStr k (toLowerStr task))
      · rw [if_pos hk] at hcond
        cases hcond
      · refine ⟨by omega, ?_⟩
        intro k hkmem
        rw [← Bool.not_eq_true]
        intro hc
        exact hk (List.any_eq_true.mpr ⟨k, hkmem, hc⟩)
  · intro ⟨hw, hk⟩
    rw [if_neg (by omega)]
    rw [if_neg ?_]
    intro hany
    rw [List.any_eq_true] at hany
    obtain ⟨k, hkmem, hc⟩ := hany
    rw [hk k hkmem] at hc
    cases hc

/-- Claim C4: `PlannerAgent.create_plan` makes zero LLM calls and returns
the single-step plan exactly when the task's word count is below the
configured threshold and no complexity keyword occurs in the lowercased
task; otherwise — for instance whenever the task contains the keyword
`game` — the backend is invoked exactly once for decomposition. -/
theorem C4_planner_gate (gen : Str → Str) (loads : Str → Option Json)
    (config : PlannerConfig) (task : Str) :
    (((createPlan gen loads config task).2 = 0 ∧
      (createPlan gen loads config task).1 =
        .ok (createSimplePlan task, [(createSimplePlan task).steps])) ↔
      ((pyWords task).length < config.min_complexity_words ∧
       ∀ k ∈ COMPLEXITY_KEYWORDS, containsStr k (toLowerStr task) = false)) ∧
    (containsStr (str "game") (toLowerStr task) = true →
      (createPlan gen loads config task).2 = 1) ∧
    (is_complex_task task config = true → (createPlan gen loads config task).2 = 1) := by
  have hcomplex1 : is_complex_task task config = true →
      (createPlan gen loads config task).2 = 1 := by
    intro hc
    rw [createPlan, if_pos hc]
    cases hp : parseLlmResponse loads (gen (formatPlannerPrompt task config)) task with
    | error e => simp only [hp]
    | ok plan =>
      simp only [hp]
      cases hst : getExecutionStages plan.steps with
      | error l => simp only [hst]
      | ok stages => simp only [hst]
  refine ⟨?_, ?_, hcomplex1⟩
  · constructor
    · intro ⟨hcalls, _⟩
      rw [← is_complex_false_iff]
      by_cases hc : is_complex_task task config
      · rw [hcomplex1 hc] at hcalls
        cases hcalls
      · simpa using hc
    · intro hcond
      have hc : is_complex_task task config = false :=
        (is_complex_false_iff task config).mpr hcond
      rw [createPlan, if_neg (by rw [hc]; simp)]
      have hstage : getExecutionStages (createSimplePlan task).steps =
          .ok [[⟨str "main", task, [], str "simple", str "pending"⟩]] := by
        exact stages_single _ rfl
      rw [createSimplePlan] at hstage ⊢
      simp only at hstage ⊢
      rw [hstage]
      exact ⟨rfl, rfl⟩
  · intro hgame
    apply hcomplex1
    rw [is_complex_task]
    by_cases hw : config.min_complexity_words ≤ (pyWords task).length
    · rw [if_pos hw]
    · rw [if_neg hw]
      rw [if_pos ?_]
      exact List.any_eq_true.mpr ⟨str "game", by simp [COMPLEXITY_KEYWORDS], hgame⟩

theorem C4_planner_gate_witness :
    ((createPlan (fun _ => []) (fun _ => none) {} (str "Sort a list")).2 = 0 ∧
     (createPlan (fun _ => []) (fun _ => none) {} (str "Sort a list")).1 =
       .ok (createSimplePlan (str "Sort a list"),
            [(createSimplePlan (str "Sort a list")).steps])) ∧
    (createPlan (fun _ => []) (fun _ => none) {} (str "Make a game")).2 = 1 :=
  ⟨(C4_planner_gate (fun _ => []) (fun _ => none) {} (str "Sort a list")).1.mpr
      (by decide),
   (C4_planner_gate (fun _ => []) (fun _ => none) {} (str "Make a game")).2.1
      (by decide)⟩

/-!
## The manager agent (`app/agents/manager/manager_agent.py`, `ManagerAgent.run`)

The builder is an oracle from the varying `StepTask` content (attempt
number, accumulated issues, previous code) to a `CodeOutput`; the reviewer
is an oracle from the attempt number to a `ReviewResult`; DocGen is an
oracle from the completed steps and task.  The returned number counts
builder executions.  Wall-clock duration is a parameter; SSE event emission
is effect-free and not modelled.
-/

def MAX_RETRY_ATTEMPTS : Nat := 3

/-- The Builder → Reviewer `while` loop of `ManagerAgent.run`.  The state
is `(attempt, issues, code_output, workflow_passed, builder executions)`;
the fuel equals `maxAttempts - attempt` at every call, so its exhaustion
coincides with the loop guard turning false. -/
def managerLoop (buildF : Nat → List ReviewIssue → Str → CodeOutput)
    (reviewF : Nat → ReviewResult) (hasReviewer : Bool) (maxAttempts : Nat) :
    Nat → Nat → List ReviewIssue → Str → Option CodeOutput → Nat →
      Nat × List ReviewIssue × Option CodeOutput × Bool × Nat
  | 0, attempt, issues, _, codeOutput, builds => (attempt, issues, codeOutput, false, builds)
  | fuel + 1, attempt, issues, previousCode, codeOutput, builds =>
    if attempt < maxAttempts then
      let attempt2 := attempt + 1
      let co := buildF attempt2 issues previousCode
      if hasReviewer then
        let rr := reviewF attempt2
        if rr.overall_passed then (attempt2, issues, some co, true, builds + 1)
        else
          managerLoop buildF reviewF hasReviewer maxAttempts fuel attempt2
            rr.issues co.code (some co) (builds + 1)
      else (attempt2, issues, some co, true, builds + 1)
    else (attempt, issues, codeOutput, false, builds)

/-- Embedding of `ManagerAgent.run` (with a builder present): the retry
loop, the DocGen step on success, and result assembly. -/
def managerRun (buildF : Nat → List ReviewIssue → Str → CodeOutput)
    (reviewF : Nat → ReviewResult) (docgenF : List CompletedStep → Str → DocumentedCode)
    (hasReviewer hasDocgen : Bool) (maxAttempts : Nat) (task : Str)
    (durationMs : Nat) : ProjectResult × Nat :=
  match managerLoop buildF reviewF hasReviewer maxAttempts maxAttempts 0 [] [] none 0 with
  | (attempt, issues, codeOutput, workflowPassed, builds) =>
    let documented :=
      if hasDocgen ∧ codeOutput.isSome ∧ workflowPassed then
        docgenF [⟨str "main", (codeOutput.map (fun c => c.code)).getD [],
                  (codeOutput.map (fun c => c.tests)).getD [], attempt, workflowPassed⟩]
          task
      else
        ⟨(codeOutput.map (fun c => c.code)).getD [], str "# Project\n\nGenerated code."⟩
    let success := workflowPassed
    let errorMessage :=
      if success then none
      else
        some (str "Review failed with " ++
          natToStr (issues.countP (fun i => i.severity == str "error")) ++
          str " blocking issue(s) after " ++ natToStr attempt ++ str " attempt(s)")
    ({ code := documented.code,
       tests := (codeOutput.map (fun c => c.tests)).getD [],
       readme := documented.readme,
       total_steps := 1,
       total_attempts := attempt,
       duration_ms := durationMs,
       success := success,
       error_message := errorMessage }, builds)

theorem managerLoop_all_fail (buildF : Nat → List ReviewIssue → Str → CodeOutput)
    (reviewF : Nat → ReviewResult) (maxAttempts : Nat)
    (hfail : ∀ k, 1 ≤ k → k ≤ maxAttempts → (reviewF k).overall_passed = false) :
    ∀ fuel attempt issues previousCode codeOutput builds,
      attempt + fuel = maxAttempts → 0 < fuel →
      ∃ co, managerLoop buildF reviewF true maxAttempts fuel attempt issues
          previousCode codeOutput builds =
        (maxAttempts, (reviewF maxAttempts).issues, some co, false, builds + fuel) := by
  intro fuel
  induction fuel with
  | zero => intro attempt issues previousCode codeOutput builds hsum h0; omega
  | succ f ih =>
    intro attempt issues previousCode codeOutput builds hsum _
    have hlt : attempt < maxAttempts := by omega
    have hrfail := hfail (attempt + 1) (by omega) (by omega)
    simp only [managerLoop, if_pos hlt, if_true, hrfail, Bool.false_eq_true, if_false]
    by_cases hf : f = 0
    · subst hf
      simp only [managerLoop]
      have hmax : attempt + 1 = maxAttempts := by omega
      refine ⟨buildF (attempt + 1) issues previousCode, ?_⟩
      rw [hmax]
    · obtain ⟨co2, hco2⟩ := ih (attempt + 1)
        (reviewF (attempt + 1)).issues
        (buildF (attempt + 1) issues previousCode).code
        (some (buildF (attempt + 1) issues previousCode))
        (builds + 1) (by omega) (by omega)
      refine ⟨co2, ?_⟩
      rw [hco2]
      have : builds + 1 + f = builds + (f + 1) := by omega
      rw [this]

/-- Claim C2: when the review fails with blocking issues on every attempt,
`ManagerAgent.run` with the default bound of 3 performs exactly 3 builder
executions and returns (does not raise) a `ProjectResult` with
`success = false`, `total_attempts = 3`, and a non-null `error_message`
naming the blocking-issue count and the attempts consumed. -/
theorem C2_manager_three_attempts
    (buildF : Nat → List ReviewIssue → Str → CodeOutput)
    (reviewF : Nat → ReviewResult) (docgenF : List CompletedStep → Str → DocumentedCode)
    (hasDocgen : Bool) (task : Str) (durationMs : Nat)
    (hfail : ∀ k, 1 ≤ k → k ≤ MAX_RETRY_ATTEMPTS →
      (reviewF k).overall_passed = false)
    (hblocking : ∀ k, 1 ≤ k → k ≤ MAX_RETRY_ATTEMPTS → 0 < (reviewF k).error_count) :
    ∃ r, managerRun buildF reviewF docgenF true hasDocgen MAX_RETRY_ATTEMPTS task
        durationMs = (r, 3) ∧
      r.success = false ∧ r.total_attempts = 3 ∧
      r.error_message = some (str "Review failed with " ++
        natToStr (reviewF 3).error_count ++
        str " blocking issue(s) after " ++ natToStr 3 ++ str " attempt(s)") := by
  obtain ⟨co, hloop⟩ := managerLoop_all_fail buildF reviewF MAX_RETRY_ATTEMPTS hfail
    MAX_RETRY_ATTEMPTS 0 [] [] none 0 (by rfl) (by decide)
  rw [managerRun, hloop]
  simp only [Option.isSome_some, and_true, true_and]
  refine ⟨_, rfl, ?_, ?_, ?_⟩
  · rfl
  · rfl
  · simp only [if_neg (by simp : ¬ (false = true))]
    rfl

/-- A review result that fails with one blocking issue, for the witness. -/
def failingReview : ReviewResult :=
  ⟨str "main", true, [], false, [⟨str "error", str "blocking", str "bug", some []⟩]⟩

theorem failingReview_blocking : 0 < failingReview.error_count := by decide

theorem C2_manager_three_attempts_witness :
    ∃ r, managerRun (fun _ _ _ => ⟨str "main", str "code", str "tests"⟩)
        (fun _ => failingReview)
        (fun _ _ => ⟨[], []⟩) true true MAX_RETRY_ATTEMPTS (str "a task") 5 = (r, 3) ∧
      r.success = false ∧ r.total_attempts = 3 ∧
      r.error_message = some (str "Review failed with " ++
        natToStr failingReview.error_count ++
        str " blocking issue(s) after " ++ natToStr 3 ++ str " attempt(s)") :=
  C2_manager_three_attempts (fun _ _ _ => ⟨str "main", str "code", str "tests"⟩)
    (fun _ => failingReview)
    (fun _ _ => ⟨[], []⟩) true (str "a task") 5
    (fun _ _ _ => rfl) (fun _ _ _ => failingReview_blocking)

/-!
## The event stream (`app/agents/task_execution.py` and
`app/api/workflow_events.py`)

The `asyncio.Queue` is FIFO: `put_nowait`/`put` append to the back and
`get` pops the front, so a producer history is a list of queued items in
push order, with `None` as the terminal sentinel (`complete()` pushes the
result event and then `None`).  The consumer's read loop
(`TaskExecution.progress` / `EventQueue.events`) pops and yields until it
observes the sentinel.
-/

/-- `WorkflowEvent` dataclass: an event type tag, a JSON-like payload and a
creation timestamp. -/
structure WorkflowEvent where
  event_type : Str
  data : List (Str × Json)
  timestamp : Str

/-- The consumer's read loop over the queued items in FIFO order: yield
each event, exit at the first sentinel (or when the producer history is
exhausted). -/
def progressYield : List (Option WorkflowEvent) → List WorkflowEvent
  | [] => []
  | none :: _ => []
  | some e :: rest => e :: progressYield rest

/-- Claim C9: for every sequence of events pushed and then the terminal
sentinel (whatever is queued after it), the read loop yields exactly the
pushed events in FIFO push order and exits precisely at the sentinel —
never before all previously pushed events have been yielded. -/
theorem C9_event_stream_fifo (events : List WorkflowEvent)
    (rest : List (Option WorkflowEvent)) :
    progressYield (events.map (fun e => some e) ++ none :: rest) = events := by
  induction events with
  | nil => rfl
  | cons e es ih =>
    simp [progressYield, ih]

end AgentService
